import Mathlib

/-!
Shallow embedding of the midway caching proxy (Autonoma-AI/midway).

The embedding covers:
  * the disk-backed LRU cache of cache/lru.go (Entry, DiskLRUCache state,
    Get, Put, GetStats, evictIfNeeded, removeEntry, loadFromDisk,
    saveMetadata, sanitizeFilename);
  * the S3 downloader of cache/s3.go (parseS3Key, getClientForBucket,
    Download) with the backend abstracted as oracle functions and an
    explicit log of backend calls;
  * the request coordinator of handler/handler.go (HandleFile).

The filesystem (the files/ directory plus the metadata.json file) is
modelled as explicit state: an association list from local filename to
byte content, and an optional decoded entry list for the metadata file.
Go's time.Now() is modelled by a monotone logical clock carried in the
cache state; int64 sizes are modelled as Int (sizes are file lengths, far
from the 2^63 overflow boundary, so no modular reduction is applied).
Fallible filesystem steps inside Put (temp-file creation, the byte copy,
the final rename) are modelled by an explicit fault-injection record,
mirroring the three error returns of the Go function.
-/

namespace Midway

/-- Entry of cache/lru.go: one cached file with its metadata. Access and
creation times use the logical clock. -/
structure Entry where
  key : String
  filename : String
  size : Int
  accessTime : Nat
  createTime : Nat
deriving DecidableEq, Repr

/-- Stats of cache/lru.go (the CacheDir string field is a constant of the
deployment and is omitted). -/
structure Stats where
  hits : Int
  misses : Int
  evictions : Int
  totalBytes : Int
  maxBytes : Int
  entryCount : Nat
deriving DecidableEq, Repr

/-- Contents of the files/ directory: local filename mapped to byte content
(bytes as Nat). -/
abbrev FileSys := List (String × List Nat)

/-- Lookup of a file by name (os.Stat / reading the file). -/
def fsLookup (fs : FileSys) (name : String) : Option (List Nat) :=
  match fs with
  | [] => none
  | (n, c) :: rest => if n = name then some c else fsLookup rest name

/-- Deletion of a file (os.Remove). Removing an absent name is a no-op. -/
def fsRemove (fs : FileSys) (name : String) : FileSys :=
  match fs with
  | [] => []
  | (n, c) :: rest => if n = name then fsRemove rest name else (n, c) :: fsRemove rest name

/-- Writing a file, replacing any previous content (os.Create + io.Copy,
or the target side of os.Rename). -/
def fsWrite (fs : FileSys) (name : String) (content : List Nat) : FileSys :=
  (name, content) :: fsRemove fs name

/-- Association-list lookup for the entries map (key to Entry). -/
def lookupEntry (es : List (String × Entry)) (k : String) : Option Entry :=
  match es with
  | [] => none
  | (k', e) :: rest => if k' = k then some e else lookupEntry rest k

/-- Association-list deletion for the entries map. -/
def eraseEntry (es : List (String × Entry)) (k : String) : List (String × Entry) :=
  match es with
  | [] => []
  | (k', e) :: rest => if k' = k then rest else (k', e) :: eraseEntry rest k

/-- Association-list insert-or-replace for the entries map (Go map
assignment). A new key is appended at the end. -/
def insertEntry (es : List (String × Entry)) (k : String) (e : Entry) : List (String × Entry) :=
  match es with
  | [] => [(k, e)]
  | (k', e') :: rest => if k' = k then (k', e) :: rest else (k', e') :: insertEntry rest k e

/-- In-place update of the Entry stored under a key (Go mutates the Entry
through the pointer held in the map). -/
def updateEntry (es : List (String × Entry)) (k : String) (f : Entry → Entry) :
    List (String × Entry) :=
  match es with
  | [] => []
  | (k', e) :: rest => if k' = k then (k', f e) :: rest else (k', e) :: updateEntry rest k f

/-- Keys of the entries map, in association-list order. -/
def entryKeys (es : List (String × Entry)) : List String := es.map Prod.fst

/-- Sum of the Size fields of all entries in the map. -/
def sizeSum (es : List (String × Entry)) : Int := (es.map (fun p => p.2.size)).sum

/-- DiskLRUCache of cache/lru.go together with the disk state it owns.
accessOrder models the container/list recency list, front = most recently
used; the accessMap is implicit (a key is in the map exactly when it is in
accessOrder). The hit/miss/eviction counters of Stats are carried
directly; TotalBytes and EntryCount are recomputed by GetStats. -/
structure CacheState where
  maxSizeBytes : Int
  currentSize : Int
  entries : List (String × Entry)
  accessOrder : List String
  files : FileSys
  metadata : Option (List Entry)
  hits : Int
  misses : Int
  evictions : Int
  clock : Nat
deriving DecidableEq, Repr

/-- Character filter of sanitizeFilename's base loop: ASCII alphanumerics,
dash, underscore and dot are kept. -/
def keepChar (r : Char) : Bool :=
  (97 ≤ r.toNat && r.toNat ≤ 122) || (65 ≤ r.toNat && r.toNat ≤ 90) ||
    (48 ≤ r.toNat && r.toNat ≤ 57) || r == '-' || r == '_' || r == '.'

/-- Helper for fileExt: walk the reversed character list, accumulating the
suffix until the final dot of the last path element is found; a path
separator or the start of the string means there is no extension. -/
def extAux : List Char → List Char → Option (List Char)
  | [], _ => none
  | c :: rest, acc =>
    if c = '/' then none
    else if c = '.' then some (c :: acc)
    else extAux rest (c :: acc)

/-- Go's filepath.Ext: the suffix beginning at the final dot in the final
path element; empty when there is no dot there. -/
def fileExt (path : String) : String :=
  match extAux path.data.reverse [] with
  | none => ""
  | some cs => String.mk cs

/-- Base-name loop of sanitizeFilename: keep safe characters, map the path
separator to an underscore, drop everything else. -/
def sanitizeBase : List Char → List Char
  | [] => []
  | r :: rest =>
    if keepChar r then r :: sanitizeBase rest
    else if r = '/' then '_' :: sanitizeBase rest
    else sanitizeBase rest

/-- sanitizeFilename of cache/lru.go: sanitize the part of the key before
the extension, then append the original extension verbatim. -/
def sanitizeFilename (key : String) : String :=
  let ext := fileExt key
  let base := key.data.take (key.data.length - ext.data.length)
  String.mk (sanitizeBase base) ++ ext

/-- The local path Get and Put return for a filename (filepath.Join of the
constant files directory with the name). -/
def filePathOf (filename : String) : String :=
  "files/" ++ filename

/-- removeEntry of cache/lru.go: delete the backing file, drop the key from
the recency list (erasing an absent key is the identity, which matches the
accessMap guard), drop it from the entries map, subtract its size. -/
def removeEntry (c : CacheState) (key : String) : CacheState :=
  match lookupEntry c.entries key with
  | none => c
  | some entry =>
    { c with
      files := fsRemove c.files entry.filename,
      accessOrder := c.accessOrder.erase key,
      entries := eraseEntry c.entries key,
      currentSize := c.currentSize - entry.size }

/-- Body of the eviction loop of evictIfNeeded, with explicit fuel.
evictIfNeeded supplies fuel equal to the length of the recency list, which
bounds the iterations of the Go loop: every iteration removes the back
key, and in every reachable state that key is in the entries map, so the
recency list shrinks by one each time. The error result of the Go function
is always nil, so no error is modelled. -/
def evictLoop (newSize : Int) : Nat → CacheState → CacheState
  | 0, c => c
  | fuel + 1, c =>
    if c.maxSizeBytes < c.currentSize + newSize ∧ 0 < c.accessOrder.length then
      match c.accessOrder.getLast? with
      | none => c
      | some key =>
        let c' := removeEntry c key
        evictLoop newSize fuel { c' with evictions := c'.evictions + 1 }
    else c

/-- evictIfNeeded of cache/lru.go: remove least recently used entries until
there is room for newSize or the cache is empty. -/
def evictIfNeeded (c : CacheState) (newSize : Int) : CacheState :=
  evictLoop newSize c.accessOrder.length c

/-- saveMetadata of cache/lru.go: serialize the full entry table to the
metadata file. Go map iteration order is arbitrary; the association list's
own order is one valid iteration order. -/
def saveMetadata (c : CacheState) : CacheState :=
  { c with metadata := some (c.entries.map Prod.snd) }

/-- Get of cache/lru.go. Returns the file path on a hit; on a miss (no
entry, or backing file deleted externally) returns none. The hit path
refreshes the access time and moves the key to the front of the recency
list. -/
def Get (c : CacheState) (key : String) : Option String × CacheState :=
  match lookupEntry c.entries key with
  | none => (none, { c with misses := c.misses + 1 })
  | some entry =>
    match fsLookup c.files entry.filename with
    | none =>
      let c' := removeEntry c key
      (none, { c' with misses := c'.misses + 1 })
    | some _ =>
      let now := c.clock
      let c' := { c with
        entries := updateEntry c.entries key (fun e => { e with accessTime := now }),
        accessOrder :=
          if key ∈ c.accessOrder then key :: c.accessOrder.erase key
          else c.accessOrder,
        hits := c.hits + 1,
        clock := c.clock + 1 }
      (some (filePathOf entry.filename), c')

/-- Fault-injection record for the three fallible filesystem steps inside
Put: creating the temp file, copying the byte stream into it, and the
final rename. -/
structure FaultSpec where
  createFails : Bool
  copyFails : Bool
  renameFails : Bool
deriving DecidableEq, Repr

/-- The fault record of a run in which every filesystem step succeeds. -/
def noFault : FaultSpec := ⟨false, false, false⟩

/-- Put of cache/lru.go, with fault injection for its error paths. An
existing entry under the key is removed first; the data is written to a
temp file, entries are evicted to make room (this step never fails in the
source), and the temp file is renamed into place; the new entry is
inserted as most recently used and the metadata is persisted (the ignored
error result of saveMetadata has no model). On each error path the temp
file is removed and the error is returned. -/
def putF (c : CacheState) (key : String) (data : List Nat) (f : FaultSpec) :
    Except String String × CacheState :=
  let c0 := if (lookupEntry c.entries key).isSome then removeEntry c key else c
  let filename := sanitizeFilename key
  let tmpPath := filename ++ ".tmp"
  if f.createFails then
    (Except.error ("failed to create temp file"), c0)
  else
    let c1 := { c0 with files := fsWrite c0.files tmpPath data }
    if f.copyFails then
      (Except.error ("failed to write file"), { c1 with files := fsRemove c1.files tmpPath })
    else
      let size : Int := data.length
      let c2 := evictIfNeeded c1 size
      if f.renameFails then
        (Except.error ("failed to rename temp file"),
          { c2 with files := fsRemove c2.files tmpPath })
      else
        let c3 := { c2 with files := fsWrite (fsRemove c2.files tmpPath) filename data }
        let now := c3.clock
        let entry : Entry := ⟨key, filename, size, now, now⟩
        let c4 := { c3 with
          entries := insertEntry c3.entries key entry,
          accessOrder := key :: c3.accessOrder,
          currentSize := c3.currentSize + size,
          clock := c3.clock + 1 }
        (Except.ok (filePathOf filename), saveMetadata c4)

/-- Put without injected faults: the run in which every filesystem step
succeeds. -/
def Put (c : CacheState) (key : String) (data : List Nat) : Except String String × CacheState :=
  putF c key data noFault

/-- GetStats of cache/lru.go: snapshot with TotalBytes and EntryCount
recomputed from the current state. -/
def GetStats (c : CacheState) : Stats :=
  ⟨c.hits, c.misses, c.evictions, c.currentSize, c.maxSizeBytes, c.entries.length⟩

/-- One step of the first loop of loadFromDisk: stat the entry's backing
file; skip the entry when the file is missing, otherwise refresh its size
from the file and account it. -/
def loadStep (files : FileSys) (acc : List (String × Entry) × Int) (e : Entry) :
    List (String × Entry) × Int :=
  match fsLookup files e.filename with
  | none => acc
  | some content =>
    let e' := { e with size := (content.length : Int) }
    (insertEntry acc.1 e.key e', acc.2 + (content.length : Int))

/-- First loop of loadFromDisk: rebuild the entry table and the current
size from the persisted entries. The loop's provisional pushBack into the
recency list is not modelled, because the second phase of loadFromDisk
discards it and rebuilds the whole list. -/
def loadPhase1 (files : FileSys) (md : List Entry) : List (String × Entry) × Int :=
  md.foldl (loadStep files) ([], 0)

/-- Characterization of what loadPhase1 keeps for one persisted entry: the
rebuilt map pair when the backing file exists (with the size refreshed
from the file), none when it does not. -/
def loadEntryOf (files : FileSys) (e : Entry) : Option (String × Entry) :=
  (fsLookup files e.filename).map (fun ct => (e.key, { e with size := (ct.length : Int) }))

/-- The size contribution of one persisted entry to the recomputed current
size: the length of its backing file when it exists. -/
def loadSizeOf (files : FileSys) (e : Entry) : Option Int :=
  (fsLookup files e.filename).map (fun ct => (ct.length : Int))

/-- Inner loop of loadFromDisk's sort: scan the positions after the
candidate, swapping the candidate with any later element having a strictly
greater access time (time.Before). Returns the final candidate and the
remaining elements in the order the swaps leave them. -/
def selectPass (a : String × Nat) : List (String × Nat) → (String × Nat) × List (String × Nat)
  | [] => (a, [])
  | b :: rest =>
    if a.2 < b.2 then
      let p := selectPass b rest
      (p.1, a :: p.2)
    else
      let p := selectPass a rest
      (p.1, b :: p.2)

/-- Outer loop of loadFromDisk's sort, with fuel. selectPass preserves the
length of the remainder, so fuel equal to the input length always
suffices. -/
def swapSortGo : Nat → List (String × Nat) → List (String × Nat)
  | 0, l => l
  | _ + 1, [] => []
  | fuel + 1, a :: rest =>
    let p := selectPass a rest
    p.1 :: swapSortGo fuel p.2

/-- The double loop of loadFromDisk that sorts (key, access time) pairs by
access time descending. -/
def swapSort (l : List (String × Nat)) : List (String × Nat) :=
  swapSortGo l.length l

/-- loadFromDisk of cache/lru.go. The metadata argument is the decoded
metadata file (none when the file is absent: fresh cache). The iter
argument is the order in which Go's map iteration yields the rebuilt
entries when they are collected for the sort; any permutation of the
surviving keys is a possible iteration order, since Go map iteration order
is unspecified. Keys not in the table are skipped by the lookup. -/
def loadFromDisk (maxSizeBytes : Int) (files : FileSys) (md : Option (List Entry))
    (iter : List String) : CacheState :=
  match md with
  | none =>
    { maxSizeBytes := maxSizeBytes, currentSize := 0, entries := [], accessOrder := [],
      files := files, metadata := none, hits := 0, misses := 0, evictions := 0, clock := 0 }
  | some entries =>
    let p := loadPhase1 files entries
    let withTimes :=
      iter.filterMap (fun k => (lookupEntry p.1 k).map (fun e => (k, e.accessTime)))
    let sorted := swapSort withTimes
    { maxSizeBytes := maxSizeBytes, currentSize := p.2, entries := p.1,
      accessOrder := sorted.map Prod.fst,
      files := files, metadata := some entries,
      hits := 0, misses := 0, evictions := 0, clock := 0 }

/-- A cache constructed over an empty directory (no metadata file). -/
def freshCache (maxSizeBytes : Int) : CacheState :=
  loadFromDisk maxSizeBytes [] none []

/-- NewDiskLRUCache of cache/lru.go: capacity configured in whole
gigabytes, state rebuilt from the on-disk files and metadata. -/
def NewDiskLRUCache (maxSizeGB : Int) (files : FileSys) (md : Option (List Entry))
    (iter : List String) : CacheState :=
  loadFromDisk (maxSizeGB * 1024 * 1024 * 1024) files md iter

/-- Record of one backend (S3) call made by the downloader. -/
inductive BackendCall where
  | locationQuery (bucket : String)
  | objectFetch (bucket : String) (objectKey : String)
deriving DecidableEq, Repr

/-- Number of location-resolution queries for a bucket in a call log. -/
def locCount (log : List BackendCall) (bucket : String) : Nat :=
  log.count (BackendCall.locationQuery bucket)

/-- The S3 backend abstracted as oracle functions: GetBucketLocation
returns the location constraint string (possibly empty), GetObject returns
the body bytes and the optional advertised content length. -/
structure S3Backend where
  getBucketLocation : String → Except String String
  getObject : String → String → Except String (List Nat × Option Int)

/-- The bucketRegions sync.Map of the downloader: bucket name to resolved
region. -/
abbrev RegionMap := List (String × String)

/-- Lookup in the bucket-region map. -/
def regionLookup (m : RegionMap) (bucket : String) : Option String :=
  match m with
  | [] => none
  | (b, r) :: rest => if b = bucket then some r else regionLookup rest bucket

/-- Store into the bucket-region map (sync.Map Store). -/
def regionStore (m : RegionMap) (bucket region : String) : RegionMap :=
  (bucket, region) :: m

/-- Split a character list at its first slash; none when there is no
slash. Models strings.SplitN(key, slash, 2). -/
def splitFirstSlash : List Char → Option (List Char × List Char)
  | [] => none
  | c :: rest =>
    if c = '/' then some ([], rest)
    else
      match splitFirstSlash rest with
      | none => none
      | some (b, p) => some (c :: b, p)

/-- parseS3Key of cache/s3.go: split a key of the form bucket/path into
the bucket and the object key; a key without a separator is an error. -/
def parseS3Key (key : String) : Except String (String × String) :=
  match splitFirstSlash key.data with
  | none => Except.error ("invalid key format, expected bucket/path: " ++ key)
  | some (b, p) => Except.ok (String.mk b, String.mk p)

/-- getClientForBucket of cache/s3.go. The constructed region-pinned
client is modelled by the region it is pinned to. Returns the result, the
updated bucket-region map, and the log of backend calls made: a cached
region is reused with no call; otherwise the location API is queried from
the bootstrap region us-east-1, an empty location is normalized to
us-east-1, and the result is stored. A failed query stores nothing. -/
def getClientForBucket (be : S3Backend) (regions : RegionMap) (bucket : String) :
    Except String String × RegionMap × List BackendCall :=
  match regionLookup regions bucket with
  | some region => (Except.ok region, regions, [])
  | none =>
    match be.getBucketLocation bucket with
    | Except.error e =>
      (Except.error ("failed to get bucket location: " ++ e), regions,
        [BackendCall.locationQuery bucket])
    | Except.ok loc =>
      let region := if loc = "" then "us-east-1" else loc
      (Except.ok region, regionStore regions bucket region,
        [BackendCall.locationQuery bucket])

/-- Download of cache/s3.go: parse the key, resolve a client for the
bucket, fetch the object. Returns the body and size (the advertised
content length, zero when absent), the updated bucket-region map, and the
log of backend calls made. -/
def Download (be : S3Backend) (regions : RegionMap) (key : String) :
    Except String (List Nat × Int) × RegionMap × List BackendCall :=
  match parseS3Key key with
  | Except.error e =>
    (Except.error ("failed to parse S3 key: " ++ e), regions, [])
  | Except.ok (bucket, objectKey) =>
    match getClientForBucket be regions bucket with
    | (Except.error e, regions', log) =>
      (Except.error ("failed to get S3 client: " ++ e), regions', log)
    | (Except.ok _region, regions', log) =>
      match be.getObject bucket objectKey with
      | Except.error e =>
        (Except.error ("failed to download from S3: " ++ e), regions',
          log ++ [BackendCall.objectFetch bucket objectKey])
      | Except.ok (body, contentLength) =>
        (Except.ok (body, contentLength.getD 0), regions',
          log ++ [BackendCall.objectFetch bucket objectKey])

/-- A sequence of Download calls against one downloader, threading the
bucket-region map and concatenating the backend call logs. -/
def downloadSeq (be : S3Backend) : List String → RegionMap → RegionMap × List BackendCall
  | [], regions => (regions, [])
  | k :: ks, regions =>
    let r := Download be regions k
    let rest := downloadSeq be ks r.2.1
    (rest.1, r.2.2 ++ rest.2)

/-- Outcome of one HandleFile request. -/
inductive HResp where
  | served (path : String)
  | notFound
  | methodNotAllowed
  | downloadFailed (msg : String)
  | cacheFailed (msg : String)
deriving DecidableEq, Repr

/-- HTTP status code of a HandleFile outcome. -/
def statusOf : HResp → Nat
  | HResp.served _ => 200
  | HResp.notFound => 404
  | HResp.methodNotAllowed => 405
  | HResp.downloadFailed _ => 404
  | HResp.cacheFailed _ => 500

/-- Removal of the leading slash from the URL path (strings.TrimPre fix of
the single slash). -/
def trimLeadingSlash (path : String) : String :=
  match path.data with
  | '/' :: rest => String.mk rest
  | _ => path

/-- HandleFile of handler/handler.go: reject non-GET, special-case the
empty, health and stats paths, then try the cache; on a miss, download and
store. A download failure is surfaced as not-found, a store failure as a
server error. -/
def HandleFile (method urlPath : String) (c : CacheState) (be : S3Backend)
    (regions : RegionMap) : HResp × CacheState × RegionMap :=
  if method ≠ "GET" then (HResp.methodNotAllowed, c, regions) else
  let key := trimLeadingSlash urlPath
  if key = "" ∨ key = "health" ∨ key = "stats" then (HResp.notFound, c, regions) else
  match Get c key with
  | (some filePath, c') => (HResp.served filePath, c', regions)
  | (none, c') =>
    match Download be regions key with
    | (Except.error e, regions', _) => (HResp.downloadFailed e, c', regions')
    | (Except.ok (body, _size), regions', _) =>
      match putF c' key body noFault with
      | (Except.ok filePath, c'') => (HResp.served filePath, c'', regions')
      | (Except.error e, c'') => (HResp.cacheFailed e, c'', regions')

/-- Intermediate state of Put after the removal of an existing entry for
the key (used to reason about the fault-free run of putF stage by
stage). -/
def putStage0 (c : CacheState) (key : String) : CacheState :=
  if (lookupEntry c.entries key).isSome then removeEntry c key else c

/-- Intermediate state of Put after the temp file has been written. -/
def putStage1 (c : CacheState) (key : String) (data : List Nat) : CacheState :=
  { putStage0 c key with
    files := fsWrite (putStage0 c key).files (sanitizeFilename key ++ ".tmp") data }

/-- Intermediate state of Put after the eviction pass. -/
def putStage2 (c : CacheState) (key : String) (data : List Nat) : CacheState :=
  evictIfNeeded (putStage1 c key data) (data.length : Int)

/-- Intermediate state of Put after the rename of the temp file into
place. -/
def putStage3 (c : CacheState) (key : String) (data : List Nat) : CacheState :=
  { putStage2 c key data with
    files := fsWrite (fsRemove (putStage2 c key data).files (sanitizeFilename key ++ ".tmp"))
      (sanitizeFilename key) data }

/-- Final state of a fault-free Put: the new entry inserted as most
recently used, counters updated, metadata persisted. -/
def putFinal (c : CacheState) (key : String) (data : List Nat) : CacheState :=
  saveMetadata { putStage3 c key data with
    entries := insertEntry (putStage3 c key data).entries key
      ⟨key, sanitizeFilename key, (data.length : Int), (putStage3 c key data).clock,
        (putStage3 c key data).clock⟩,
    accessOrder := key :: (putStage3 c key data).accessOrder,
    currentSize := (putStage3 c key data).currentSize + (data.length : Int),
    clock := (putStage3 c key data).clock + 1 }

/-- A sequence of fault-free Put calls, threading the cache state. -/
def putSeq (c : CacheState) : List (String × List Nat) → CacheState
  | [] => c
  | (k, d) :: rest => putSeq (Put c k d).2 rest

/-- Description of the cache state after storing the keys of `done` (in
order, each of size s, from a fresh cache of capacity maxCap) with no
evictions: the entry table holds exactly those keys in insertion order,
every entry records size s and its sanitized filename, the recency list is
the reverse of the insertion order, the tracked size is s per entry, no
eviction has happened, and each key's file holds its data. -/
def SeqState (maxCap s : Int) (dataOf : String → List Nat) (done : List String)
    (c : CacheState) : Prop :=
  c.maxSizeBytes = maxCap ∧
  entryKeys c.entries = done ∧
  (∀ p ∈ c.entries, p.2.size = s ∧ p.2.filename = sanitizeFilename p.1) ∧
  c.accessOrder = done.reverse ∧
  c.currentSize = (done.length : Int) * s ∧
  c.evictions = 0 ∧
  ∀ k ∈ done, fsLookup c.files (sanitizeFilename k) = some (dataOf k)

/-- A stub backend whose location and object calls always fail. -/
def beFail : S3Backend :=
  ⟨fun _ => Except.error ("unavailable"), fun _ _ => Except.error ("unavailable")⟩

/-- A stub backend that reports the default (empty) location for every
bucket and returns a one-byte object. -/
def beOk : S3Backend :=
  ⟨fun _ => Except.ok (""), fun _ _ => Except.ok ([7], some 1)⟩

/-- A concrete cache state holding one entry whose backing file exists. -/
def oneEntryState : CacheState :=
  { maxSizeBytes := 10, currentSize := 3,
    entries := [("b/x", ⟨"b/x", "b_x", 3, 0, 0⟩)],
    accessOrder := ["b/x"],
    files := [("b_x", [1, 2, 3])],
    metadata := some [⟨"b/x", "b_x", 3, 0, 0⟩],
    hits := 0, misses := 0, evictions := 0, clock := 1 }

/-- A concrete cache state holding one entry whose backing file is
missing (deleted externally). -/
def staleState : CacheState :=
  { oneEntryState with files := [] }

/-- Structural invariant of the cache: keys are unique in the entries map,
the recency list is a permutation of the keys, the tracked current size is
the sum of the entry sizes, and each entry records its own key. -/
def Inv (c : CacheState) : Prop :=
  (entryKeys c.entries).Nodup ∧
  c.accessOrder.Perm (entryKeys c.entries) ∧
  c.currentSize = sizeSum c.entries ∧
  ∀ p ∈ c.entries, p.2.key = p.1

instance (c : CacheState) : Decidable (Inv c) := by
  unfold Inv
  infer_instance

/-- Cache states reachable from a fresh cache or from a cache reloaded
from persisted metadata (with unique keys, as saveMetadata writes) by any
sequence of Get and Put operations, the latter with any injected faults.
The iteration-order argument of the reload is constrained to be a
permutation of the surviving keys, which is what a Go map iteration
yields. -/
inductive Reachable : CacheState → Prop where
  | fresh (maxSizeBytes : Int) : Reachable (freshCache maxSizeBytes)
  | reload (maxSizeBytes : Int) (files : FileSys) (md : List Entry) (iter : List String)
      (hnodup : (md.map Entry.key).Nodup)
      (hiter : iter.Perm (entryKeys (loadPhase1 files md).1)) :
      Reachable (loadFromDisk maxSizeBytes files (some md) iter)
  | get (c : CacheState) (key : String) : Reachable c → Reachable (Get c key).2
  | put (c : CacheState) (key : String) (data : List Nat) (f : FaultSpec) :
      Reachable c → Reachable (putF c key data f).2

/-! Lemmas about the filesystem model. -/

theorem fsLookup_fsRemove_self (fs : FileSys) (n : String) :
    fsLookup (fsRemove fs n) n = none := by
  induction fs with
  | nil => rfl
  | cons p rest ih =>
    obtain ⟨m, c⟩ := p
    by_cases h : m = n <;> simp [fsRemove, fsLookup, h, ih]

theorem fsLookup_fsRemove_ne (fs : FileSys) (n m : String) (h : m ≠ n) :
    fsLookup (fsRemove fs n) m = fsLookup fs m := by
  induction fs with
  | nil => rfl
  | cons p rest ih =>
    obtain ⟨n', c⟩ := p
    by_cases h1 : n' = n
    · have h2 : ¬ n' = m := by rw [h1]; exact Ne.symm h
      have h3 : ¬ n = m := Ne.symm h
      simp [fsRemove, fsLookup, h1, h2, h3, ih]
    · by_cases h2 : n' = m <;> simp [fsRemove, fsLookup, h1, h2, h, ih]

theorem fsLookup_fsWrite_self (fs : FileSys) (n : String) (c : List Nat) :
    fsLookup (fsWrite fs n c) n = some c := by
  simp [fsWrite, fsLookup]

theorem fsLookup_fsWrite_ne (fs : FileSys) (n m : String) (c : List Nat) (h : m ≠ n) :
    fsLookup (fsWrite fs n c) m = fsLookup fs m := by
  have h2 : ¬ n = m := Ne.symm h
  simp [fsWrite, fsLookup, h2, fsLookup_fsRemove_ne fs n m h]

/-! Lemmas about the entries association list. -/

theorem entryKeys_cons (p : String × Entry) (es : List (String × Entry)) :
    entryKeys (p :: es) = p.1 :: entryKeys es := rfl

theorem entryKeys_append (a b : List (String × Entry)) :
    entryKeys (a ++ b) = entryKeys a ++ entryKeys b := by
  simp [entryKeys]

theorem sizeSum_cons (p : String × Entry) (es : List (String × Entry)) :
    sizeSum (p :: es) = p.2.size + sizeSum es := by
  simp [sizeSum]

theorem sizeSum_append (a b : List (String × Entry)) :
    sizeSum (a ++ b) = sizeSum a + sizeSum b := by
  simp [sizeSum]

theorem lookupEntry_eq_none (es : List (String × Entry)) (k : String) :
    lookupEntry es k = none ↔ k ∉ entryKeys es := by
  induction es with
  | nil => simp [lookupEntry, entryKeys]
  | cons p rest ih =>
    obtain ⟨k', e⟩ := p
    by_cases h : k' = k
    · subst h
      simp [lookupEntry, entryKeys_cons]
    · have h2 : ¬ k = k' := Ne.symm h
      simp [lookupEntry, entryKeys_cons, h, h2, ih]

theorem lookupEntry_isSome_of_mem (es : List (String × Entry)) (k : String)
    (h : k ∈ entryKeys es) : (lookupEntry es k).isSome := by
  cases he : lookupEntry es k with
  | none => exact absurd ((lookupEntry_eq_none es k).mp he) (by simp [h])
  | some e => simp

theorem mem_of_lookupEntry_some (es : List (String × Entry)) (k : String) (e : Entry)
    (h : lookupEntry es k = some e) : k ∈ entryKeys es := by
  by_contra hmem
  rw [(lookupEntry_eq_none es k).mpr hmem] at h
  cases h

/-- Decomposition of a successful lookup: the list splits at the first pair
carrying the key, and eraseEntry removes exactly that pair. -/
theorem lookupEntry_decomp (es : List (String × Entry)) (k : String) (e : Entry)
    (h : lookupEntry es k = some e) :
    ∃ l1 l2, es = l1 ++ (k, e) :: l2 ∧ k ∉ entryKeys l1 ∧ eraseEntry es k = l1 ++ l2 := by
  induction es with
  | nil => cases h
  | cons p rest ih =>
    obtain ⟨k', e'⟩ := p
    by_cases hk : k' = k
    · subst hk
      have he : e' = e := by simpa [lookupEntry] using h
      subst he
      exact ⟨[], rest, by simp, by simp [entryKeys], by simp [eraseEntry]⟩
    · have h' : lookupEntry rest k = some e := by simpa [lookupEntry, hk] using h
      obtain ⟨l1, l2, hsplit, hnot, herase⟩ := ih h'
      have hkk' : ¬ k = k' := Ne.symm hk
      refine ⟨(k', e') :: l1, l2, by simp [hsplit], ?_, ?_⟩
      · simp [entryKeys_cons, hnot, hkk']
      · simp [eraseEntry, hk, herase]

theorem entryKeys_eraseEntry (es : List (String × Entry)) (k : String) :
    entryKeys (eraseEntry es k) = (entryKeys es).erase k := by
  induction es with
  | nil => rfl
  | cons p rest ih =>
    obtain ⟨k', e⟩ := p
    by_cases h : k' = k
    · subst h
      simp [eraseEntry, entryKeys_cons, List.erase_cons]
    · simp [eraseEntry, entryKeys_cons, h, List.erase_cons, ih]

theorem entryKeys_updateEntry (es : List (String × Entry)) (k : String) (f : Entry → Entry) :
    entryKeys (updateEntry es k f) = entryKeys es := by
  induction es with
  | nil => rfl
  | cons p rest ih =>
    obtain ⟨k', e⟩ := p
    by_cases h : k' = k <;> simp [updateEntry, entryKeys_cons, h, ih]

theorem sizeSum_updateEntry (es : List (String × Entry)) (k : String) (f : Entry → Entry)
    (hf : ∀ e, (f e).size = e.size) :
    sizeSum (updateEntry es k f) = sizeSum es := by
  induction es with
  | nil => rfl
  | cons p rest ih =>
    obtain ⟨k', e⟩ := p
    by_cases h : k' = k <;> simp [updateEntry, sizeSum_cons, h, ih, hf]

theorem keyField_updateEntry (es : List (String × Entry)) (k : String) (f : Entry → Entry)
    (hf : ∀ e, (f e).key = e.key) (h : ∀ p ∈ es, p.2.key = p.1) :
    ∀ p ∈ updateEntry es k f, p.2.key = p.1 := by
  induction es with
  | nil => simp [updateEntry]
  | cons p rest ih =>
    obtain ⟨k', e⟩ := p
    have hrest : ∀ q ∈ rest, q.2.key = q.1 :=
      fun q hq => h q (List.mem_cons_of_mem _ hq)
    by_cases hk : k' = k
    · intro q hq
      simp only [updateEntry, if_pos hk, List.mem_cons] at hq
      rcases hq with rfl | hq
      · have := h (k', e) (List.mem_cons_self _ _)
        simpa [hf] using this
      · exact hrest q hq
    · intro q hq
      simp only [updateEntry, if_neg hk, List.mem_cons] at hq
      rcases hq with rfl | hq
      · exact h (k', e) (List.mem_cons_self _ _)
      · exact ih hrest q hq

theorem insertEntry_of_not_mem (es : List (String × Entry)) (k : String) (e : Entry)
    (h : k ∉ entryKeys es) : insertEntry es k e = es ++ [(k, e)] := by
  induction es with
  | nil => rfl
  | cons p rest ih =>
    obtain ⟨k', e'⟩ := p
    simp only [entryKeys_cons, List.mem_cons, not_or] at h
    have h1 : ¬ k' = k := Ne.symm h.1
    simp [insertEntry, h1, ih h.2]

theorem lookupEntry_append_right (l1 l2 : List (String × Entry)) (k : String)
    (h : k ∉ entryKeys l1) : lookupEntry (l1 ++ l2) k = lookupEntry l2 k := by
  induction l1 with
  | nil => rfl
  | cons p rest ih =>
    obtain ⟨k', e⟩ := p
    simp only [entryKeys_cons, List.mem_cons, not_or] at h
    have h1 : ¬ k' = k := Ne.symm h.1
    simp [lookupEntry, h1, ih h.2]

theorem lookupEntry_updateEntry_ne (es : List (String × Entry)) (k k' : String)
    (f : Entry → Entry) (h : k' ≠ k) :
    lookupEntry (updateEntry es k f) k' = lookupEntry es k' := by
  induction es with
  | nil => rfl
  | cons p rest ih =>
    obtain ⟨k0, e⟩ := p
    by_cases h0 : k0 = k
    · subst h0
      have h2 : ¬ k0 = k' := Ne.symm h
      simp [updateEntry, lookupEntry, h2]
    · by_cases h1 : k0 = k' <;> simp [updateEntry, lookupEntry, h0, h1, h, ih]

theorem lookupEntry_updateEntry_self (es : List (String × Entry)) (k : String)
    (f : Entry → Entry) :
    lookupEntry (updateEntry es k f) k = (lookupEntry es k).map f := by
  induction es with
  | nil => rfl
  | cons p rest ih =>
    obtain ⟨k0, e⟩ := p
    by_cases h0 : k0 = k <;> simp [updateEntry, lookupEntry, h0, ih]

theorem lookupEntry_eraseEntry_none (es : List (String × Entry)) (k k' : String)
    (h : lookupEntry es k = none) : lookupEntry (eraseEntry es k') k = none := by
  rw [lookupEntry_eq_none] at h ⊢
  rw [entryKeys_eraseEntry]
  exact fun hm => h (List.mem_of_mem_erase hm)

/-! Lemmas about removeEntry. -/

theorem removeEntry_maxSize (c : CacheState) (k : String) :
    (removeEntry c k).maxSizeBytes = c.maxSizeBytes := by
  unfold removeEntry
  cases lookupEntry c.entries k <;> rfl

theorem removeEntry_misses (c : CacheState) (k : String) :
    (removeEntry c k).misses = c.misses := by
  unfold removeEntry
  cases lookupEntry c.entries k <;> rfl

theorem removeEntry_hits (c : CacheState) (k : String) :
    (removeEntry c k).hits = c.hits := by
  unfold removeEntry
  cases lookupEntry c.entries k <;> rfl

theorem removeEntry_evictions (c : CacheState) (k : String) :
    (removeEntry c k).evictions = c.evictions := by
  unfold removeEntry
  cases lookupEntry c.entries k <;> rfl

theorem removeEntry_inv (c : CacheState) (k : String) (hInv : Inv c) :
    Inv (removeEntry c k) := by
  obtain ⟨hnd, hperm, hsz, hkey⟩ := hInv
  unfold removeEntry
  cases h : lookupEntry c.entries k with
  | none => exact ⟨hnd, hperm, hsz, hkey⟩
  | some e =>
    obtain ⟨l1, l2, hsplit, hnot, herase⟩ := lookupEntry_decomp _ _ _ h
    refine ⟨?_, ?_, ?_, ?_⟩
    · show (entryKeys (eraseEntry c.entries k)).Nodup
      rw [entryKeys_eraseEntry]
      exact hnd.erase k
    · show (c.accessOrder.erase k).Perm (entryKeys (eraseEntry c.entries k))
      rw [entryKeys_eraseEntry]
      exact hperm.erase k
    · show c.currentSize - e.size = sizeSum (eraseEntry c.entries k)
      rw [herase, hsz, hsplit, sizeSum_append, sizeSum_append, sizeSum_cons]
      ring
    · show ∀ p ∈ eraseEntry c.entries k, p.2.key = p.1
      rw [herase]
      intro p hp
      apply hkey
      rw [hsplit]
      rcases List.mem_append.mp hp with h1 | h2
      · exact List.mem_append.mpr (Or.inl h1)
      · exact List.mem_append.mpr (Or.inr (List.mem_cons_of_mem _ h2))

theorem removeEntry_lookup_self (c : CacheState) (k : String)
    (hnd : (entryKeys c.entries).Nodup) :
    lookupEntry (removeEntry c k).entries k = none := by
  unfold removeEntry
  cases h : lookupEntry c.entries k with
  | none => exact h
  | some e =>
    obtain ⟨l1, l2, hsplit, hnot, herase⟩ := lookupEntry_decomp _ _ _ h
    show lookupEntry (eraseEntry c.entries k) k = none
    rw [herase, lookupEntry_append_right _ _ _ hnot, lookupEntry_eq_none]
    rw [hsplit] at hnd
    rw [entryKeys_append, entryKeys_cons] at hnd
    have := (List.nodup_append.mp hnd).2.1
    exact (List.nodup_cons.mp this).1

theorem removeEntry_lookup_none (c : CacheState) (k k' : String)
    (h : lookupEntry c.entries k = none) :
    lookupEntry (removeEntry c k').entries k = none := by
  unfold removeEntry
  cases h' : lookupEntry c.entries k' with
  | none => exact h
  | some e => exact lookupEntry_eraseEntry_none _ _ _ h

theorem removeEntry_accessOrder_length (c : CacheState) (k : String) (e : Entry)
    (hl : lookupEntry c.entries k = some e) (hmem : k ∈ c.accessOrder) :
    (removeEntry c k).accessOrder.length = c.accessOrder.length - 1 := by
  unfold removeEntry
  rw [hl]
  exact List.length_erase_of_mem hmem

/-! Lemmas about the eviction loop. -/

theorem evictLoop_maxSize (s : Int) (fuel : Nat) (c : CacheState) :
    (evictLoop s fuel c).maxSizeBytes = c.maxSizeBytes := by
  induction fuel generalizing c with
  | zero => rfl
  | succ n ih =>
    rw [evictLoop]
    split
    · split
      · rfl
      · rw [ih]
        simp [removeEntry_maxSize]
    · rfl

theorem evictLoop_lookup_none (s : Int) (fuel : Nat) (c : CacheState) (k : String)
    (h : lookupEntry c.entries k = none) :
    lookupEntry (evictLoop s fuel c).entries k = none := by
  induction fuel generalizing c with
  | zero => exact h
  | succ n ih =>
    rw [evictLoop]
    split
    · split
      · exact h
      · exact ih _ (removeEntry_lookup_none _ _ _ h)
    · exact h

/-- Main specification of the eviction loop: with enough fuel (the length
of the recency list suffices) it preserves the invariant and stops either
with room for the new object or with an empty recency list. -/
theorem evictLoop_spec (s : Int) (fuel : Nat) (c : CacheState) (hInv : Inv c)
    (hfuel : c.accessOrder.length ≤ fuel) :
    Inv (evictLoop s fuel c) ∧
      ((evictLoop s fuel c).currentSize + s ≤ c.maxSizeBytes ∨
        (evictLoop s fuel c).accessOrder = []) := by
  induction fuel generalizing c with
  | zero =>
    refine ⟨hInv, Or.inr ?_⟩
    exact List.length_eq_zero.mp (Nat.le_zero.mp hfuel)
  | succ n ih =>
    rw [evictLoop]
    by_cases hcond : c.maxSizeBytes < c.currentSize + s ∧ 0 < c.accessOrder.length
    · rw [if_pos hcond]
      have hne : c.accessOrder ≠ [] := by
        intro he
        rw [he] at hcond
        exact absurd hcond.2 (by simp)
      rw [List.getLast?_eq_getLast _ hne]
      set k := c.accessOrder.getLast hne with hk
      have hmem : k ∈ c.accessOrder := List.getLast_mem hne
      have hkeys : k ∈ entryKeys c.entries := (hInv.2.1.mem_iff).mp hmem
      have hsome : (lookupEntry c.entries k).isSome := lookupEntry_isSome_of_mem _ _ hkeys
      obtain ⟨e, he⟩ := Option.isSome_iff_exists.mp hsome
      have hinv' : Inv (removeEntry c k) := removeEntry_inv c k hInv
      have hlen : (removeEntry c k).accessOrder.length = c.accessOrder.length - 1 :=
        removeEntry_accessOrder_length c k e he hmem
      have hlen' : ({ removeEntry c k with
          evictions := (removeEntry c k).evictions + 1 } : CacheState).accessOrder.length ≤ n := by
        show (removeEntry c k).accessOrder.length ≤ n
        omega
      have := ih { removeEntry c k with evictions := (removeEntry c k).evictions + 1 }
        hinv' hlen'
      refine ⟨this.1, ?_⟩
      have hmax : ({ removeEntry c k with
          evictions := (removeEntry c k).evictions + 1 } : CacheState).maxSizeBytes
            = c.maxSizeBytes := by
        show (removeEntry c k).maxSizeBytes = c.maxSizeBytes
        exact removeEntry_maxSize c k
      rw [hmax] at this
      exact this.2
    · rw [if_neg hcond]
      refine ⟨hInv, ?_⟩
      by_cases hsz : c.maxSizeBytes < c.currentSize + s
      · right
        have : ¬ 0 < c.accessOrder.length := fun hp => hcond ⟨hsz, hp⟩
        have hz : c.accessOrder.length = 0 := by omega
        exact List.length_eq_zero.mp hz
      · left
        omega

/-! Lemmas about the selection sort of loadFromDisk. -/

theorem selectPass_length (a : String × Nat) (l : List (String × Nat)) :
    (selectPass a l).2.length = l.length := by
  induction l generalizing a with
  | nil => rfl
  | cons b rest ih =>
    by_cases h : a.2 < b.2 <;> simp [selectPass, h, ih]

theorem selectPass_perm (a : String × Nat) (l : List (String × Nat)) :
    (a :: l).Perm ((selectPass a l).1 :: (selectPass a l).2) := by
  induction l generalizing a with
  | nil => simp [selectPass]
  | cons b rest ih =>
    by_cases h : a.2 < b.2
    · simp only [selectPass, if_pos h]
      exact ((ih b).cons a).trans (List.Perm.swap _ _ _)
    · simp only [selectPass, if_neg h]
      exact ((List.Perm.swap _ _ _).trans (((ih a).cons b))).trans (List.Perm.swap _ _ _)

theorem selectPass_max (a : String × Nat) (l : List (String × Nat)) :
    a.2 ≤ (selectPass a l).1.2 ∧ ∀ x ∈ (selectPass a l).2, x.2 ≤ (selectPass a l).1.2 := by
  induction l generalizing a with
  | nil => simp [selectPass]
  | cons b rest ih =>
    by_cases h : a.2 < b.2
    · simp only [selectPass, if_pos h]
      obtain ⟨h1, h2⟩ := ih b
      refine ⟨le_trans (le_of_lt h) h1, ?_⟩
      intro x hx
      rcases List.mem_cons.mp hx with rfl | hx
      · exact le_trans (le_of_lt h) h1
      · exact h2 x hx
    · simp only [selectPass, if_neg h]
      obtain ⟨h1, h2⟩ := ih a
      refine ⟨h1, ?_⟩
      intro x hx
      rcases List.mem_cons.mp hx with rfl | hx
      · exact le_trans (Nat.le_of_not_lt h) h1
      · exact h2 x hx

theorem swapSortGo_perm (fuel : Nat) (l : List (String × Nat)) (h : l.length ≤ fuel) :
    (swapSortGo fuel l).Perm l := by
  induction fuel generalizing l with
  | zero =>
    have hl : l = [] := List.length_eq_zero.mp (Nat.le_zero.mp h)
    subst hl
    simp [swapSortGo]
  | succ n ih =>
    cases l with
    | nil => simp [swapSortGo]
    | cons a rest =>
      rw [swapSortGo]
      have hlen : (selectPass a rest).2.length ≤ n := by
        rw [selectPass_length]
        simpa using h
      exact ((ih _ hlen).cons _).trans (selectPass_perm a rest).symm

theorem swapSortGo_sorted (fuel : Nat) (l : List (String × Nat)) (h : l.length ≤ fuel) :
    List.Chain' (fun p q : String × Nat => q.2 ≤ p.2) (swapSortGo fuel l) := by
  induction fuel generalizing l with
  | zero =>
    have hl : l = [] := List.length_eq_zero.mp (Nat.le_zero.mp h)
    subst hl
    simp [swapSortGo]
  | succ n ih =>
    cases l with
    | nil => simp [swapSortGo]
    | cons a rest =>
      rw [swapSortGo]
      have hlen : (selectPass a rest).2.length ≤ n := by
        rw [selectPass_length]
        simpa using h
      rw [List.chain'_cons']
      refine ⟨?_, ih _ hlen⟩
      intro y hy
      have hmem : y ∈ (selectPass a rest).2 :=
        (swapSortGo_perm n _ hlen).mem_iff.mp (List.mem_of_mem_head? hy)
      exact (selectPass_max a rest).2 y hmem

theorem swapSort_perm (l : List (String × Nat)) : (swapSort l).Perm l :=
  swapSortGo_perm _ _ le_rfl

theorem swapSort_sorted (l : List (String × Nat)) :
    List.Chain' (fun p q : String × Nat => q.2 ≤ p.2) (swapSort l) :=
  swapSortGo_sorted _ _ le_rfl

/-! Lemmas about loadPhase1. -/

theorem loadStep_of_none (files : FileSys) (acc : List (String × Entry) × Int) (e : Entry)
    (hf : fsLookup files e.filename = none) : loadStep files acc e = acc := by
  simp [loadStep, hf]

theorem loadStep_of_some (files : FileSys) (acc : List (String × Entry) × Int) (e : Entry)
    (ct : List Nat) (hf : fsLookup files e.filename = some ct) :
    loadStep files acc e =
      (insertEntry acc.1 e.key { e with size := (ct.length : Int) },
        acc.2 + (ct.length : Int)) := by
  simp [loadStep, hf]

theorem loadPhase1_foldl_entries (files : FileSys) (md : List Entry)
    (acc : List (String × Entry) × Int)
    (hnd : (md.map Entry.key).Nodup)
    (hdisj : ∀ e ∈ md, e.key ∉ entryKeys acc.1) :
    (md.foldl (loadStep files) acc).1 = acc.1 ++ md.filterMap (loadEntryOf files) := by
  induction md generalizing acc with
  | nil => simp
  | cons e rest ih =>
    rw [List.foldl_cons, List.filterMap_cons]
    have hndrest : (rest.map Entry.key).Nodup := (List.nodup_cons.mp hnd).2
    cases hf : fsLookup files e.filename with
    | none =>
      rw [loadStep_of_none files acc e hf]
      have : loadEntryOf files e = none := by simp [loadEntryOf, hf]
      rw [this]
      exact ih acc hndrest (fun e' he' => hdisj e' (List.mem_cons_of_mem _ he'))
    | some ct =>
      rw [loadStep_of_some files acc e ct hf]
      have hins : insertEntry acc.1 e.key { e with size := (ct.length : Int) } =
          acc.1 ++ [(e.key, { e with size := (ct.length : Int) })] :=
        insertEntry_of_not_mem _ _ _ (hdisj e (List.mem_cons_self _ _))
      have hle : loadEntryOf files e = some (e.key, { e with size := (ct.length : Int) }) := by
        simp [loadEntryOf, hf]
      rw [hle]
      have hdisj' : ∀ e' ∈ rest,
          e'.key ∉ entryKeys (acc.1 ++ [(e.key, { e with size := (ct.length : Int) })]) := by
        intro e' he'
        rw [entryKeys_append]
        intro hm
        rcases List.mem_append.mp hm with hm | hm
        · exact hdisj e' (List.mem_cons_of_mem _ he') hm
        · have : e'.key = e.key := by simpa [entryKeys] using hm
          have : e.key ∈ rest.map Entry.key := by
            rw [← this]
            exact List.mem_map_of_mem _ he'
          exact (List.nodup_cons.mp hnd).1 this
      have := ih (acc.1 ++ [(e.key, { e with size := (ct.length : Int) })],
        acc.2 + (ct.length : Int)) hndrest hdisj'
      rw [hins]
      rw [this]
      simp

theorem loadPhase1_foldl_size (files : FileSys) (md : List Entry)
    (acc : List (String × Entry) × Int) :
    (md.foldl (loadStep files) acc).2 = acc.2 + (md.filterMap (loadSizeOf files)).sum := by
  induction md generalizing acc with
  | nil => simp
  | cons e rest ih =>
    rw [List.foldl_cons, List.filterMap_cons]
    cases hf : fsLookup files e.filename with
    | none =>
      rw [loadStep_of_none files acc e hf]
      have : loadSizeOf files e = none := by simp [loadSizeOf, hf]
      rw [this]
      exact ih acc
    | some ct =>
      rw [loadStep_of_some files acc e ct hf]
      have : loadSizeOf files e = some (ct.length : Int) := by simp [loadSizeOf, hf]
      rw [this, ih]
      simp [add_assoc]

theorem loadPhase1_entries (files : FileSys) (md : List Entry)
    (hnd : (md.map Entry.key).Nodup) :
    (loadPhase1 files md).1 = md.filterMap (loadEntryOf files) := by
  have := loadPhase1_foldl_entries files md ([], 0) hnd (by simp [entryKeys])
  simpa [loadPhase1] using this

theorem loadPhase1_size (files : FileSys) (md : List Entry) :
    (loadPhase1 files md).2 = (md.filterMap (loadSizeOf files)).sum := by
  have := loadPhase1_foldl_size files md ([], 0)
  simpa [loadPhase1] using this

theorem entryKeys_filterMap_sublist (files : FileSys) (md : List Entry) :
    (entryKeys (md.filterMap (loadEntryOf files))).Sublist (md.map Entry.key) := by
  induction md with
  | nil => simp [entryKeys]
  | cons e rest ih =>
    rw [List.filterMap_cons, List.map_cons]
    cases hf : fsLookup files e.filename with
    | none =>
      have : loadEntryOf files e = none := by simp [loadEntryOf, hf]
      rw [this]
      exact ih.cons _
    | some ct =>
      have : loadEntryOf files e = some (e.key, { e with size := (ct.length : Int) }) := by
        simp [loadEntryOf, hf]
      rw [this, entryKeys_cons]
      exact ih.cons₂ _

theorem keyField_filterMap (files : FileSys) (md : List Entry) :
    ∀ p ∈ md.filterMap (loadEntryOf files), p.2.key = p.1 := by
  induction md with
  | nil => simp
  | cons e rest ih =>
    rw [List.filterMap_cons]
    cases hf : fsLookup files e.filename with
    | none =>
      have : loadEntryOf files e = none := by simp [loadEntryOf, hf]
      rw [this]
      exact ih
    | some ct =>
      have : loadEntryOf files e = some (e.key, { e with size := (ct.length : Int) }) := by
        simp [loadEntryOf, hf]
      rw [this]
      intro p hp
      rcases List.mem_cons.mp hp with rfl | hp
      · rfl
      · exact ih p hp

theorem sizeSum_filterMap (files : FileSys) (md : List Entry) :
    sizeSum (md.filterMap (loadEntryOf files)) = (md.filterMap (loadSizeOf files)).sum := by
  induction md with
  | nil => rfl
  | cons e rest ih =>
    rw [List.filterMap_cons, List.filterMap_cons]
    cases hf : fsLookup files e.filename with
    | none =>
      have h1 : loadEntryOf files e = none := by simp [loadEntryOf, hf]
      have h2 : loadSizeOf files e = none := by simp [loadSizeOf, hf]
      rw [h1, h2]
      exact ih
    | some ct =>
      have h1 : loadEntryOf files e = some (e.key, { e with size := (ct.length : Int) }) := by
        simp [loadEntryOf, hf]
      have h2 : loadSizeOf files e = some (ct.length : Int) := by simp [loadSizeOf, hf]
      rw [h1, h2, sizeSum_cons, List.sum_cons, ih]

theorem lookupEntry_filterMap_some (files : FileSys) (md : List Entry)
    (hnd : (md.map Entry.key).Nodup) (e : Entry) (he : e ∈ md) (ct : List Nat)
    (hf : fsLookup files e.filename = some ct) :
    lookupEntry (md.filterMap (loadEntryOf files)) e.key =
      some { e with size := (ct.length : Int) } := by
  induction md with
  | nil => cases he
  | cons e0 rest ih =>
    rw [List.filterMap_cons]
    rcases List.mem_cons.mp he with rfl | he'
    · have : loadEntryOf files e = some (e.key, { e with size := (ct.length : Int) }) := by
        simp [loadEntryOf, hf]
      rw [this]
      simp [lookupEntry]
    · have hne : ¬ e0.key = e.key := by
        intro hkey
        have : e.key ∈ rest.map Entry.key := List.mem_map_of_mem _ he'
        rw [← hkey] at this
        exact (List.nodup_cons.mp hnd).1 this
      cases hf0 : fsLookup files e0.filename with
      | none =>
        have : loadEntryOf files e0 = none := by simp [loadEntryOf, hf0]
        rw [this]
        exact ih (List.nodup_cons.mp hnd).2 he'
      | some ct0 =>
        have : loadEntryOf files e0 = some (e0.key, { e0 with size := (ct0.length : Int) }) := by
          simp [loadEntryOf, hf0]
        rw [this]
        simp only [lookupEntry, if_neg hne]
        exact ih (List.nodup_cons.mp hnd).2 he'

theorem notMem_filterMap_of_missing (files : FileSys) (md : List Entry)
    (hnd : (md.map Entry.key).Nodup) (e : Entry) (he : e ∈ md)
    (hf : fsLookup files e.filename = none) :
    e.key ∉ entryKeys (md.filterMap (loadEntryOf files)) := by
  induction md with
  | nil => cases he
  | cons e0 rest ih =>
    rw [List.filterMap_cons]
    rcases List.mem_cons.mp he with rfl | he'
    · have h0 : loadEntryOf files e = none := by simp [loadEntryOf, hf]
      rw [h0]
      intro hm
      have hsub := entryKeys_filterMap_sublist files rest
      have : e.key ∈ rest.map Entry.key := hsub.mem hm
      exact (List.nodup_cons.mp hnd).1 this
    · have hne : e.key ≠ e0.key := by
        intro hkey
        have : e.key ∈ rest.map Entry.key := List.mem_map_of_mem _ he'
        rw [hkey] at this
        exact (List.nodup_cons.mp hnd).1 this
      cases hf0 : fsLookup files e0.filename with
      | none =>
        have h0 : loadEntryOf files e0 = none := by simp [loadEntryOf, hf0]
        rw [h0]
        exact ih (List.nodup_cons.mp hnd).2 he'
      | some ct0 =>
        have h0 : loadEntryOf files e0 = some (e0.key, { e0 with size := (ct0.length : Int) }) := by
          simp [loadEntryOf, hf0]
        rw [h0, entryKeys_cons]
        intro hm
        rcases List.mem_cons.mp hm with hh | hm
        · exact hne hh
        · exact ih (List.nodup_cons.mp hnd).2 he' hm

/-! Invariant preservation. -/

theorem inv_saveMetadata (c : CacheState) (h : Inv c) : Inv (saveMetadata c) := h

theorem inv_files_update (c : CacheState) (fs : FileSys) (h : Inv c) :
    Inv { c with files := fs } := h

theorem inv_counters_update (c : CacheState) (h : Inv c) (a b d : Int) (n : Nat) :
    Inv { c with hits := a, misses := b, evictions := d, clock := n } := h

theorem inv_insert_new (c : CacheState) (k : String) (e : Entry) (n : Nat)
    (hnone : lookupEntry c.entries k = none) (hek : e.key = k) (hInv : Inv c) :
    Inv { c with entries := insertEntry c.entries k e,
                 accessOrder := k :: c.accessOrder,
                 currentSize := c.currentSize + e.size,
                 clock := n } := by
  obtain ⟨hnd, hperm, hsz, hkey⟩ := hInv
  have hmem : k ∉ entryKeys c.entries := (lookupEntry_eq_none _ _).mp hnone
  have hins : insertEntry c.entries k e = c.entries ++ [(k, e)] :=
    insertEntry_of_not_mem _ _ _ hmem
  refine ⟨?_, ?_, ?_, ?_⟩
  · show (entryKeys (insertEntry c.entries k e)).Nodup
    rw [hins, entryKeys_append]
    have hperm2 : (entryKeys c.entries ++ entryKeys [(k, e)]).Perm
        (k :: entryKeys c.entries) := List.perm_append_singleton k (entryKeys c.entries)
    rw [hperm2.nodup_iff]
    exact List.nodup_cons.mpr ⟨hmem, hnd⟩
  · show (k :: c.accessOrder).Perm (entryKeys (insertEntry c.entries k e))
    rw [hins, entryKeys_append]
    refine (hperm.cons k).trans ?_
    have := List.perm_append_singleton k (entryKeys c.entries)
    simpa [entryKeys] using this.symm
  · show c.currentSize + e.size = sizeSum (insertEntry c.entries k e)
    rw [hins, sizeSum_append, sizeSum_cons, hsz]
    simp [sizeSum]
  · show ∀ p ∈ insertEntry c.entries k e, p.2.key = p.1
    rw [hins]
    intro p hp
    rcases List.mem_append.mp hp with hp | hp
    · exact hkey p hp
    · rcases List.mem_cons.mp hp with rfl | hp
      · exact hek
      · cases hp

theorem get_inv (c : CacheState) (k : String) (hInv : Inv c) : Inv (Get c k).2 := by
  obtain ⟨hnd, hperm, hsz, hkey⟩ := hInv
  cases h : lookupEntry c.entries k with
  | none =>
    simp only [Get, h]
    exact ⟨hnd, hperm, hsz, hkey⟩
  | some e =>
    cases hf : fsLookup c.files e.filename with
    | none =>
      simp only [Get, h, hf]
      exact removeEntry_inv c k ⟨hnd, hperm, hsz, hkey⟩
    | some content =>
      simp only [Get, h, hf]
      have hmemk : k ∈ entryKeys c.entries := mem_of_lookupEntry_some _ _ _ h
      have hmem : k ∈ c.accessOrder := hperm.mem_iff.mpr hmemk
      refine ⟨?_, ?_, ?_, ?_⟩
      · show (entryKeys (updateEntry c.entries k _)).Nodup
        rw [entryKeys_updateEntry]
        exact hnd
      · show (if k ∈ c.accessOrder then k :: c.accessOrder.erase k else c.accessOrder).Perm
          (entryKeys (updateEntry c.entries k _))
        rw [entryKeys_updateEntry, if_pos hmem]
        exact (List.perm_cons_erase hmem).symm.trans hperm
      · show c.currentSize = sizeSum (updateEntry c.entries k
          (fun e => { e with accessTime := c.clock }))
        rw [sizeSum_updateEntry c.entries k
          (fun e => { e with accessTime := c.clock }) (fun e => rfl)]
        exact hsz
      · show ∀ p ∈ updateEntry c.entries k _, p.2.key = p.1
        exact keyField_updateEntry _ _ _ (fun e => rfl) hkey

theorem putF_inv (c : CacheState) (k : String) (data : List Nat) (f : FaultSpec)
    (hInv : Inv c) : Inv (putF c k data f).2 := by
  have hinv0 : Inv (if (lookupEntry c.entries k).isSome then removeEntry c k else c) := by
    split
    · exact removeEntry_inv c k hInv
    · exact hInv
  have hnone0 : lookupEntry
      (if (lookupEntry c.entries k).isSome then removeEntry c k else c).entries k = none := by
    split
    · exact removeEntry_lookup_self c k hInv.1
    · rename_i hns
      exact Option.not_isSome_iff_eq_none.mp hns
  set c0 := if (lookupEntry c.entries k).isSome then removeEntry c k else c with hc0
  set c1 : CacheState :=
    { c0 with files := fsWrite c0.files (sanitizeFilename k ++ ".tmp") data } with hc1
  have hinv1 : Inv c1 := hinv0
  have hnone1 : lookupEntry c1.entries k = none := hnone0
  have hinv2 : Inv (evictLoop (data.length : Int) c1.accessOrder.length c1) :=
    (evictLoop_spec _ _ _ hinv1 (le_refl _)).1
  have hnone2 : lookupEntry
      (evictLoop (data.length : Int) c1.accessOrder.length c1).entries k = none :=
    evictLoop_lookup_none _ _ _ _ hnone1
  set c2 := evictLoop (data.length : Int) c1.accessOrder.length c1 with hc2
  set c3 : CacheState := { c2 with
    files := fsWrite (fsRemove c2.files (sanitizeFilename k ++ ".tmp"))
      (sanitizeFilename k) data } with hc3
  have hinv3 : Inv c3 := hinv2
  have hnone3 : lookupEntry c3.entries k = none := hnone2
  cases hcf : f.createFails with
  | true =>
    simp only [putF, hcf, if_true]
    exact hinv0
  | false =>
    cases hcp : f.copyFails with
    | true =>
      simp only [putF, hcf, hcp, if_true, Bool.false_eq_true, if_false]
      exact hinv0
    | false =>
      cases hcr : f.renameFails with
      | true =>
        simp only [putF, hcf, hcp, hcr, evictIfNeeded, if_true, Bool.false_eq_true, if_false]
        exact hinv2
      | false =>
        simp only [putF, hcf, hcp, hcr, evictIfNeeded, Bool.false_eq_true, if_false]
        apply inv_saveMetadata
        exact inv_insert_new c3 k
          ⟨k, sanitizeFilename k, (data.length : Int), c3.clock, c3.clock⟩
          (c3.clock + 1) hnone3 rfl hinv3

theorem freshCache_inv (m : Int) : Inv (freshCache m) := by
  refine ⟨?_, ?_, ?_, ?_⟩
  · exact List.nodup_nil
  · exact List.Perm.refl _
  · rfl
  · intro p hp
    cases hp

theorem filterMap_lookup_keys (es : List (String × Entry)) (iter : List String)
    (h : ∀ k ∈ iter, k ∈ entryKeys es) :
    (iter.filterMap (fun k => (lookupEntry es k).map (fun e => (k, e.accessTime)))).map
      Prod.fst = iter := by
  induction iter with
  | nil => rfl
  | cons k rest ih =>
    rw [List.filterMap_cons]
    have hs : (lookupEntry es k).isSome :=
      lookupEntry_isSome_of_mem _ _ (h k (List.mem_cons_self _ _))
    obtain ⟨e, he⟩ := Option.isSome_iff_exists.mp hs
    rw [he]
    show ((k, e.accessTime) :: _).map Prod.fst = k :: rest
    rw [List.map_cons]
    rw [ih (fun k' hk' => h k' (List.mem_cons_of_mem _ hk'))]

theorem loadFromDisk_inv (m : Int) (files : FileSys) (md : List Entry) (iter : List String)
    (hnd : (md.map Entry.key).Nodup)
    (hiter : iter.Perm (entryKeys (loadPhase1 files md).1)) :
    Inv (loadFromDisk m files (some md) iter) := by
  have hent := loadPhase1_entries files md hnd
  have hkeysnd : (entryKeys (loadPhase1 files md).1).Nodup := by
    rw [hent]
    exact (entryKeys_filterMap_sublist files md).nodup hnd
  have hmemiter : ∀ k ∈ iter, k ∈ entryKeys (loadPhase1 files md).1 :=
    fun k hk => hiter.mem_iff.mp hk
  refine ⟨?_, ?_, ?_, ?_⟩
  · show (entryKeys (loadPhase1 files md).1).Nodup
    exact hkeysnd
  · show ((swapSort _).map Prod.fst).Perm (entryKeys (loadPhase1 files md).1)
    have h1 : ((swapSort (iter.filterMap
        (fun k => (lookupEntry (loadPhase1 files md).1 k).map
          (fun e => (k, e.accessTime))))).map Prod.fst).Perm
        ((iter.filterMap (fun k => (lookupEntry (loadPhase1 files md).1 k).map
          (fun e => (k, e.accessTime)))).map Prod.fst) :=
      (swapSort_perm _).map Prod.fst
    rw [filterMap_lookup_keys _ _ hmemiter] at h1
    exact h1.trans hiter
  · show (loadPhase1 files md).2 = sizeSum (loadPhase1 files md).1
    rw [hent, loadPhase1_size, sizeSum_filterMap]
  · show ∀ p ∈ (loadPhase1 files md).1, p.2.key = p.1
    rw [hent]
    exact keyField_filterMap files md

theorem reachable_inv (c : CacheState) (h : Reachable c) : Inv c := by
  induction h with
  | fresh m => exact freshCache_inv m
  | reload m files md iter hnd hiter => exact loadFromDisk_inv m files md iter hnd hiter
  | get c k _ ih => exact get_inv c k ih
  | put c k d f _ ih => exact putF_inv c k d f ih

/-! Decomposition of a fault-free Put into its stages. -/

theorem put_eq_stages (c : CacheState) (key : String) (data : List Nat) :
    Put c key data = (Except.ok (filePathOf (sanitizeFilename key)), putFinal c key data) :=
  rfl

theorem get_miss_of_none (c : CacheState) (k : String)
    (h : lookupEntry c.entries k = none) :
    (Get c k).1 = none ∧ (Get c k).2.misses = c.misses + 1 ∧ (Get c k).2.entries = c.entries := by
  simp [Get, h]

theorem lookupEntry_none_of_keys (es : List (String × Entry)) (k : String)
    (h : k ∉ entryKeys es) : lookupEntry es k = none :=
  (lookupEntry_eq_none es k).mpr h

/-! Claim C5. -/

/-- C5: in every cache state reachable from a fresh or reloaded cache by
Get and Put operations, each key maps to at most one live entry (the key
list of the entry table has no duplicate), and the sum of the Size fields
of all entries equals the tracked currentSize counter, which is exactly
the TotalBytes that GetStats reports. -/
theorem c5_state_invariant (c : CacheState) (h : Reachable c) :
    (entryKeys c.entries).Nodup ∧ sizeSum c.entries = c.currentSize ∧
      (GetStats c).totalBytes = c.currentSize := by
  obtain ⟨hnd, hperm, hsz, hkey⟩ := reachable_inv c h
  exact ⟨hnd, hsz.symm, rfl⟩

/-- Witness for C5 at a concrete reachable state: a fresh cache of two
bytes capacity after one Put. -/
theorem c5_state_invariant_witness :
    (entryKeys (putF (freshCache 2) ("b/x") [1, 2, 3] noFault).2.entries).Nodup ∧
      sizeSum (putF (freshCache 2) ("b/x") [1, 2, 3] noFault).2.entries =
        (putF (freshCache 2) ("b/x") [1, 2, 3] noFault).2.currentSize ∧
      (GetStats (putF (freshCache 2) ("b/x") [1, 2, 3] noFault).2).totalBytes =
        (putF (freshCache 2) ("b/x") [1, 2, 3] noFault).2.currentSize :=
  c5_state_invariant _ (Reachable.put _ _ _ _ (Reachable.fresh 2))

/-! Claim C4. -/

/-- C4: Get on a key whose index entry exists but whose backing file is
absent returns not-found, records a miss (not a hit), removes the stale
entry from the index and subtracts its size from the tracked current size,
observable as a reduced entry count in a subsequent GetStats; Get on a key
with no entry at all records a miss and leaves the index unmodified. -/
theorem c4_stale_file_miss (c : CacheState) (key : String) :
    (∀ e, lookupEntry c.entries key = some e →
      fsLookup c.files e.filename = none →
      (entryKeys c.entries).Nodup →
      (Get c key).1 = none ∧
      (Get c key).2.misses = c.misses + 1 ∧
      (Get c key).2.hits = c.hits ∧
      lookupEntry (Get c key).2.entries key = none ∧
      (Get c key).2.currentSize = c.currentSize - e.size ∧
      (GetStats (Get c key).2).entryCount + 1 = (GetStats c).entryCount) ∧
    (lookupEntry c.entries key = none →
      (Get c key).1 = none ∧
      (Get c key).2.misses = c.misses + 1 ∧
      (Get c key).2.entries = c.entries) := by
  constructor
  · intro e he hf hnd
    obtain ⟨l1, l2, hsplit, hnot, herase⟩ := lookupEntry_decomp _ _ _ he
    simp only [Get, he, hf]
    refine ⟨by trivial, ?_, ?_, ?_, ?_, ?_⟩
    · show (removeEntry c key).misses + 1 = c.misses + 1
      rw [removeEntry_misses]
    · show (removeEntry c key).hits = c.hits
      rw [removeEntry_hits]
    · show lookupEntry (removeEntry c key).entries key = none
      exact removeEntry_lookup_self c key hnd
    · show (removeEntry c key).currentSize = c.currentSize - e.size
      unfold removeEntry
      rw [he]
    · show (removeEntry c key).entries.length + 1 = c.entries.length
      unfold removeEntry
      rw [he]
      show (eraseEntry c.entries key).length + 1 = c.entries.length
      rw [herase, hsplit]
      simp
      omega
  · intro h
    exact get_miss_of_none c key h

/-- Witness for C4 at concrete states: a one-entry cache whose file is
missing, and a fresh cache for the no-entry part. -/
theorem c4_stale_file_miss_witness :
    ((Get staleState ("b/x")).1 = none ∧
      (Get staleState ("b/x")).2.misses = staleState.misses + 1 ∧
      (Get staleState ("b/x")).2.hits = staleState.hits ∧
      lookupEntry (Get staleState ("b/x")).2.entries ("b/x") = none ∧
      (Get staleState ("b/x")).2.currentSize =
        staleState.currentSize - (3 : Int) ∧
      (GetStats (Get staleState ("b/x")).2).entryCount + 1 =
        (GetStats staleState).entryCount) ∧
    ((Get (freshCache 5) ("b/x")).1 = none ∧
      (Get (freshCache 5) ("b/x")).2.misses = (freshCache 5).misses + 1 ∧
      (Get (freshCache 5) ("b/x")).2.entries = (freshCache 5).entries) :=
  ⟨(c4_stale_file_miss staleState ("b/x")).1 ⟨"b/x", "b_x", 3, 0, 0⟩
      (by decide) (by decide) (by decide),
    (c4_stale_file_miss (freshCache 5) ("b/x")).2 (by decide)⟩

/-! Claim C9 (corrected). -/

/-- C9 counterexample: the claim says every character of a sanitized
filename is safe, but the extension is appended verbatim: the key a.b@c
sanitizes to itself, and the at-sign it contains is not in the safe set. -/
theorem c9_counterexample :
    sanitizeFilename ("a.b@c") = "a.b@c" ∧
      '@' ∈ (sanitizeFilename ("a.b@c")).data ∧ keepChar '@' = false := by
  refine ⟨by decide, by decide, by decide⟩

theorem sanitizeBase_safe (l : List Char) :
    ∀ ch ∈ sanitizeBase l, keepChar ch = true := by
  induction l with
  | nil => simp [sanitizeBase]
  | cons r rest ih =>
    by_cases h : keepChar r
    · simp only [sanitizeBase, if_pos h]
      intro ch hch
      rcases List.mem_cons.mp hch with rfl | hch
      · exact h
      · exact ih ch hch
    · by_cases h2 : r = '/'
      · simp only [sanitizeBase, if_neg h, if_pos h2]
        intro ch hch
        rcases List.mem_cons.mp hch with rfl | hch
        · decide
        · exact ih ch hch
      · simp only [sanitizeBase, if_neg h, if_neg h2]
        exact ih

/-- C9 amended: the sanitized filename is the character-filtered stem
(alphanumerics, dash, underscore and dot kept, slash mapped to
underscore, everything else dropped) followed by the original extension
appended verbatim; every character of the stem is in the safe set, but
the extension is not filtered, so unsafe characters can survive in it
(see the counterexample). -/
theorem c9_sanitize_stem_safe (key : String) :
    sanitizeFilename key =
      String.mk (sanitizeBase (key.data.take (key.data.length - (fileExt key).data.length)))
        ++ fileExt key ∧
    ∀ ch ∈ sanitizeBase (key.data.take (key.data.length - (fileExt key).data.length)),
      keepChar ch = true :=
  ⟨rfl, sanitizeBase_safe _⟩

/-! Claim C8 (corrected). -/

/-- C8 counterexample: two reloads of the same metadata and files need not
produce the same recency order. With two surviving entries carrying equal
access times, the two possible map-iteration orders (both permutations of
the surviving keys) yield different rebuilt recency lists: the unstable
sort leaves ties in iteration order. -/
theorem c8_counterexample :
    (["a", "b"] : List String).Perm ["b", "a"] ∧
    (loadFromDisk 10 [("fa", [0]), ("fb", [0])]
        (some [⟨"a", "fa", 1, 5, 0⟩, ⟨"b", "fb", 1, 5, 0⟩]) ["a", "b"]).accessOrder ≠
      (loadFromDisk 10 [("fa", [0]), ("fb", [0])]
        (some [⟨"a", "fa", 1, 5, 0⟩, ⟨"b", "fb", 1, 5, 0⟩]) ["b", "a"]).accessOrder := by
  refine ⟨by decide, by decide⟩

/-- C8 amended: startup recovery does sort the surviving entries by access
time descending (the rebuilt recency list is the key projection of a
non-increasing-time permutation of the iterated entries), but ties among
equal timestamps follow Go's unspecified map-iteration order, so the
rebuilt order is not deterministic across reloads. -/
theorem c8_reload_sorted (m : Int) (files : FileSys) (md : List Entry) (iter : List String) :
    ∃ ps : List (String × Nat),
      (loadFromDisk m files (some md) iter).accessOrder = ps.map Prod.fst ∧
      List.Chain' (fun p q : String × Nat => q.2 ≤ p.2) ps ∧
      ps.Perm (iter.filterMap (fun k =>
        (lookupEntry (loadPhase1 files md).1 k).map (fun e => (k, e.accessTime)))) :=
  ⟨swapSort _, rfl, swapSort_sorted _, swapSort_perm _⟩

/-! Lemmas about key parsing. -/

theorem splitFirstSlash_none (l : List Char) (h : '/' ∉ l) : splitFirstSlash l = none := by
  induction l with
  | nil => rfl
  | cons c rest ih =>
    simp only [List.mem_cons, not_or] at h
    have hc : ¬ c = '/' := fun he => h.1 he.symm
    simp [splitFirstSlash, hc, ih h.2]

theorem splitFirstSlash_some (l : List Char) (h : '/' ∈ l) :
    ∃ b p, splitFirstSlash l = some (b, p) ∧ l = b ++ '/' :: p ∧ '/' ∉ b := by
  induction l with
  | nil => cases h
  | cons c rest ih =>
    by_cases hc : c = '/'
    · subst hc
      exact ⟨[], rest, by simp [splitFirstSlash], rfl, by simp⟩
    · have hr : '/' ∈ rest := by
        rcases List.mem_cons.mp h with h1 | h1
        · exact absurd h1.symm hc
        · exact h1
      obtain ⟨b, p, hsp, hl, hb⟩ := ih hr
      refine ⟨c :: b, p, by simp [splitFirstSlash, hc, hsp], by simp [hl], ?_⟩
      intro hm
      rcases List.mem_cons.mp hm with h1 | h1
      · exact hc h1.symm
      · exact hb h1

theorem parseS3Key_no_slash (key : String) (h : '/' ∉ key.data) :
    ∃ msg, parseS3Key key = Except.error msg := by
  refine ⟨"invalid key format, expected bucket/path: " ++ key, ?_⟩
  simp [parseS3Key, splitFirstSlash_none key.data h]

theorem parseS3Key_slash (key : String) (h : '/' ∈ key.data) :
    ∃ b p, parseS3Key key = Except.ok (b, p) ∧ key = b ++ "/" ++ p ∧ '/' ∉ b.data := by
  obtain ⟨b, p, hsp, hl, hb⟩ := splitFirstSlash_some key.data h
  refine ⟨String.mk b, String.mk p, by simp [parseS3Key, hsp], ?_, by simpa using hb⟩
  apply String.ext
  rw [String.data_append, String.data_append]
  simpa using hl

theorem trimLeadingSlash_slash_append (key : String) :
    trimLeadingSlash ("/" ++ key) = key := by
  have h : ("/" ++ key).data = '/' :: key.data := by
    rw [String.data_append]
    rfl
  unfold trimLeadingSlash
  rw [h]
  rfl

/-! Claim C6. -/

/-- C6: a key without a slash separator makes Download fail at parseS3Key
with no backend call (empty call log) and no change to the bucket-region
map, and HandleFile (when the key is not cached, as such keys never are)
surfaces it as a 404 response; a key with a slash parses into the text
before the first slash as the container and the rest as the object
path. -/
theorem c6_invalid_key (key : String) (c : CacheState) (be : S3Backend)
    (regions : RegionMap) :
    ('/' ∉ key.data →
      (∃ msg, Download be regions key = (Except.error msg, regions, [])) ∧
      (lookupEntry c.entries key = none →
        statusOf (HandleFile ("GET") ("/" ++ key) c be regions).1 = 404)) ∧
    ('/' ∈ key.data →
      ∃ b p, parseS3Key key = Except.ok (b, p) ∧ key = b ++ "/" ++ p ∧ '/' ∉ b.data) := by
  constructor
  · intro h
    obtain ⟨msg, herr⟩ := parseS3Key_no_slash key h
    constructor
    · exact ⟨"failed to parse S3 key: " ++ msg, by simp [Download, herr]⟩
    · intro hmiss
      simp only [HandleFile, trimLeadingSlash_slash_append]
      rw [if_neg (by simp)]
      by_cases hsp : key = "" ∨ key = "health" ∨ key = "stats"
      · rw [if_pos hsp]
        rfl
      · rw [if_neg hsp]
        simp only [Get, hmiss, Download, herr]
        rfl
  · intro h
    exact parseS3Key_slash key h

/-- Witness for C6: the slashless key nokey is rejected with no backend
call and served as 404 on a fresh cache; the key x/y/z splits at its
first slash. -/
theorem c6_invalid_key_witness :
    ((∃ msg, Download beFail [] ("nokey") = (Except.error msg, [], [])) ∧
      statusOf (HandleFile ("GET") ("/" ++ "nokey") (freshCache 1) beFail []).1 = 404) ∧
    (∃ b p, parseS3Key ("x/y/z") = Except.ok (b, p) ∧
      ("x/y/z" : String) = b ++ "/" ++ p ∧ '/' ∉ b.data) :=
  ⟨⟨((c6_invalid_key ("nokey") (freshCache 1) beFail []).1 (by decide)).1,
      ((c6_invalid_key ("nokey") (freshCache 1) beFail []).1 (by decide)).2 (by decide)⟩,
    (c6_invalid_key ("x/y/z") (freshCache 1) beFail []).2 (by decide)⟩

/-! Lemmas about the bucket-region map and the call log. -/

theorem regionLookup_store_self (m : RegionMap) (b r : String) :
    regionLookup (regionStore m b r) b = some r := by
  simp [regionStore, regionLookup]

theorem locCount_append (l1 l2 : List BackendCall) (b : String) :
    locCount (l1 ++ l2) b = locCount l1 b + locCount l2 b :=
  List.count_append _ _ _

/-- Behavior of one Download with respect to one bucket's location
queries: at most one query is made; none is made (and the cached region
survives) when the bucket is already resolved; and under a backend whose
location call for the bucket succeeds, a made query leaves the bucket
resolved. -/
theorem download_step (be : S3Backend) (regions : RegionMap) (key bucket : String) :
    locCount (Download be regions key).2.2 bucket ≤ 1 ∧
    ((regionLookup regions bucket).isSome →
      locCount (Download be regions key).2.2 bucket = 0 ∧
      (regionLookup (Download be regions key).2.1 bucket).isSome) ∧
    ((∃ loc, be.getBucketLocation bucket = Except.ok loc) →
      locCount (Download be regions key).2.2 bucket = 1 →
      (regionLookup (Download be regions key).2.1 bucket).isSome) := by
  cases hp : parseS3Key key with
  | error e =>
    refine ⟨by simp [Download, hp, locCount], fun hP => ⟨by simp [Download, hp, locCount], ?_⟩,
      fun _ hc => ?_⟩
    · simpa [Download, hp] using hP
    · simp [Download, hp, locCount] at hc
  | ok bp =>
    obtain ⟨b0, path⟩ := bp
    cases hr : regionLookup regions b0 with
    | some r0 =>
      have hlog : (Download be regions key).2.2 = [BackendCall.objectFetch b0 path] ∧
          (Download be regions key).2.1 = regions := by
        cases ho : be.getObject b0 path with
        | error e => simp [Download, hp, getClientForBucket, hr, ho]
        | ok body => simp [Download, hp, getClientForBucket, hr, ho]
      refine ⟨?_, fun hP => ⟨?_, ?_⟩, fun _ hc => ?_⟩
      · rw [hlog.1]
        simp [locCount]
      · rw [hlog.1]
        simp [locCount]
      · rw [hlog.2]
        exact hP
      · rw [hlog.1] at hc
        simp [locCount] at hc
    | none =>
      cases hl : be.getBucketLocation b0 with
      | error e =>
        have hlog : (Download be regions key).2.2 = [BackendCall.locationQuery b0] ∧
            (Download be regions key).2.1 = regions := by
          simp [Download, hp, getClientForBucket, hr, hl]
        by_cases hb : b0 = bucket
        · subst hb
          refine ⟨?_, fun hP => absurd hP (by simp [hr]), fun hsucc _ => ?_⟩
          · rw [hlog.1]
            simp [locCount]
          · obtain ⟨loc, hok⟩ := hsucc
            rw [hl] at hok
            cases hok
        · refine ⟨?_, fun hP => ⟨?_, ?_⟩, fun _ hc => ?_⟩
          · rw [hlog.1]
            simp [locCount, List.count_cons, hb]
          · rw [hlog.1]
            simp [locCount, List.count_cons, hb]
          · rw [hlog.2]
            exact hP
          · rw [hlog.1] at hc
            simp [locCount, List.count_cons, hb] at hc
      | ok loc =>
        have hlog : (Download be regions key).2.2 =
            [BackendCall.locationQuery b0, BackendCall.objectFetch b0 path] ∧
            (Download be regions key).2.1 =
              regionStore regions b0 (if loc = "" then "us-east-1" else loc) := by
          cases ho : be.getObject b0 path with
          | error e => simp [Download, hp, getClientForBucket, hr, hl, ho]
          | ok body => simp [Download, hp, getClientForBucket, hr, hl, ho]
        by_cases hb : b0 = bucket
        · subst hb
          refine ⟨?_, fun hP => absurd hP (by simp [hr]), fun _ _ => ?_⟩
          · rw [hlog.1]
            simp [locCount, List.count_cons]
          · rw [hlog.2, regionLookup_store_self]
            rfl
        · refine ⟨?_, fun hP => ⟨?_, ?_⟩, fun _ hc => ?_⟩
          · rw [hlog.1]
            simp [locCount, List.count_cons, hb]
          · rw [hlog.1]
            simp [locCount, List.count_cons, hb]
          · rw [hlog.2]
            simpa [regionStore, regionLookup, hb] using hP
          · rw [hlog.1] at hc
            simp [locCount, List.count_cons, hb] at hc

theorem downloadSeq_count (be : S3Backend) (bucket : String)
    (hsucc : ∃ loc, be.getBucketLocation bucket = Except.ok loc) (keys : List String) :
    ∀ regions : RegionMap,
      ((regionLookup regions bucket).isSome →
        locCount (downloadSeq be keys regions).2 bucket = 0) ∧
      locCount (downloadSeq be keys regions).2 bucket ≤ 1 := by
  induction keys with
  | nil =>
    intro regions
    exact ⟨fun _ => rfl, by simp [downloadSeq, locCount]⟩
  | cons k ks ih =>
    intro regions
    obtain ⟨hle, hcached, hquery⟩ := download_step be regions k bucket
    constructor
    · intro hP
      obtain ⟨h0, hP'⟩ := hcached hP
      have hrest := ((ih (Download be regions k).2.1).1) hP'
      show locCount ((Download be regions k).2.2 ++
        (downloadSeq be ks (Download be regions k).2.1).2) bucket = 0
      rw [locCount_append, h0, hrest]
    · show locCount ((Download be regions k).2.2 ++
        (downloadSeq be ks (Download be regions k).2.1).2) bucket ≤ 1
      rw [locCount_append]
      by_cases hP : (regionLookup regions bucket).isSome
      · obtain ⟨h0, hP'⟩ := hcached hP
        rw [h0, (ih _).1 hP']
        omega
      · rcases Nat.lt_or_ge (locCount (Download be regions k).2.2 bucket) 1 with h1 | h1
        · have h0 : locCount (Download be regions k).2.2 bucket = 0 := by omega
          rw [h0]
          have := (ih (Download be regions k).2.1).2
          omega
        · have h1' : locCount (Download be regions k).2.2 bucket = 1 := by omega
          have hP' := hquery hsucc h1'
          rw [h1', (ih _).1 hP']

theorem download_stores_normalized (be : S3Backend) (regions : RegionMap)
    (key bucket objectPath loc : String)
    (hp : parseS3Key key = Except.ok (bucket, objectPath))
    (hr : regionLookup regions bucket = none)
    (hl : be.getBucketLocation bucket = Except.ok loc) :
    regionLookup (Download be regions key).2.1 bucket =
      some (if loc = "" then "us-east-1" else loc) := by
  cases ho : be.getObject bucket objectPath with
  | error e =>
    simp [Download, hp, getClientForBucket, hr, hl, ho, regionLookup_store_self]
  | ok body =>
    simp [Download, hp, getClientForBucket, hr, hl, ho, regionLookup_store_self]

/-! Claim C7 (corrected). -/

/-- C7 counterexample: when the location query fails, nothing is cached
and the next Download for the same container queries again, so the
location query is not performed at most once across a sequence: two
Downloads for container b against an always-failing backend make two
location queries. -/
theorem c7_counterexample :
    ¬ locCount (downloadSeq beFail ["b/x", "b/y"] []).2 ("b") ≤ 1 := by
  decide

/-- C7 amended: for every container whose location query succeeds, the
query is performed at most once across any sequence of Download calls on
one downloader (the first successful resolution is stored and reused; a
failed query stores nothing and is retried); an empty location response is
normalized to us-east-1 before being stored. -/
theorem c7_region_cache (be : S3Backend) (bucket loc : String)
    (hloc : be.getBucketLocation bucket = Except.ok loc) :
    (∀ keys : List String, locCount (downloadSeq be keys []).2 bucket ≤ 1) ∧
    (∀ (regions : RegionMap) (key objectPath : String),
      parseS3Key key = Except.ok (bucket, objectPath) →
      regionLookup regions bucket = none →
      regionLookup (Download be regions key).2.1 bucket =
        some (if loc = "" then "us-east-1" else loc)) := by
  constructor
  · intro keys
    exact (downloadSeq_count be bucket ⟨loc, hloc⟩ keys []).2
  · intro regions key objectPath hp hr
    exact download_stores_normalized be regions key bucket objectPath loc hp hr hloc

/-- Witness for C7 at a concrete backend that reports the default empty
location: one query across two Downloads for container b, stored
normalized to us-east-1. -/
theorem c7_region_cache_witness :
    locCount (downloadSeq beOk ["b/x", "b/y"] []).2 ("b") ≤ 1 ∧
      regionLookup (Download beOk [] ("b/x")).2.1 ("b") = some ("us-east-1") :=
  ⟨(c7_region_cache beOk ("b") ("") rfl).1 ["b/x", "b/y"],
    by
      have := (c7_region_cache beOk ("b") ("") rfl).2 [] ("b/x") ("x") rfl rfl
      simpa using this⟩

/-! Lemmas about the stages of Put. -/

theorem putStage0_inv (c : CacheState) (key : String) (hInv : Inv c) :
    Inv (putStage0 c key) := by
  unfold putStage0
  split
  · exact removeEntry_inv c key hInv
  · exact hInv

theorem putStage0_lookup_self (c : CacheState) (key : String)
    (hnd : (entryKeys c.entries).Nodup) :
    lookupEntry (putStage0 c key).entries key = none := by
  unfold putStage0
  split
  · exact removeEntry_lookup_self c key hnd
  · rename_i hns
    exact Option.not_isSome_iff_eq_none.mp hns

theorem putStage0_maxSize (c : CacheState) (key : String) :
    (putStage0 c key).maxSizeBytes = c.maxSizeBytes := by
  unfold putStage0
  split
  · exact removeEntry_maxSize c key
  · rfl

theorem putStage2_lookup_self (c : CacheState) (key : String) (data : List Nat)
    (hnd : (entryKeys c.entries).Nodup) :
    lookupEntry (putStage2 c key data).entries key = none :=
  evictLoop_lookup_none _ _ _ _ (putStage0_lookup_self c key hnd)

theorem putStage2_maxSize (c : CacheState) (key : String) (data : List Nat) :
    (putStage2 c key data).maxSizeBytes = c.maxSizeBytes := by
  show (evictLoop (data.length : Int) (putStage1 c key data).accessOrder.length
    (putStage1 c key data)).maxSizeBytes = c.maxSizeBytes
  rw [evictLoop_maxSize]
  exact putStage0_maxSize c key

theorem putFinal_currentSize (c : CacheState) (key : String) (data : List Nat) :
    (putFinal c key data).currentSize =
      (putStage2 c key data).currentSize + (data.length : Int) := rfl

theorem putFinal_entries (c : CacheState) (key : String) (data : List Nat) :
    (putFinal c key data).entries = insertEntry (putStage2 c key data).entries key
      ⟨key, sanitizeFilename key, (data.length : Int), (putStage3 c key data).clock,
        (putStage3 c key data).clock⟩ := rfl

theorem putFinal_maxSize (c : CacheState) (key : String) (data : List Nat) :
    (putFinal c key data).maxSizeBytes = c.maxSizeBytes :=
  putStage2_maxSize c key data

theorem putF_createFail (c : CacheState) (key : String) (data : List Nat) (f : FaultSpec)
    (h : f.createFails = true) :
    putF c key data f = (Except.error ("failed to create temp file"), putStage0 c key) := by
  simp [putF, h, putStage0]

theorem putF_copyFail (c : CacheState) (key : String) (data : List Nat) (f : FaultSpec)
    (h1 : f.createFails = false) (h2 : f.copyFails = true) :
    putF c key data f = (Except.error ("failed to write file"),
      { putStage1 c key data with
        files := fsRemove (putStage1 c key data).files (sanitizeFilename key ++ ".tmp") }) := by
  simp [putF, h1, h2, putStage1, putStage0]

theorem putF_renameFail (c : CacheState) (key : String) (data : List Nat) (f : FaultSpec)
    (h1 : f.createFails = false) (h2 : f.copyFails = false) (h3 : f.renameFails = true) :
    putF c key data f = (Except.error ("failed to rename temp file"),
      { putStage2 c key data with
        files := fsRemove (putStage2 c key data).files (sanitizeFilename key ++ ".tmp") }) := by
  simp [putF, h1, h2, h3, putStage2, putStage1, putStage0, evictIfNeeded]

/-! Claim C10. -/

/-- C10: when the key already has a live entry and the temp-file creation,
the byte copy, or the rename fails, Put returns an error, but the
pre-existing entry was already removed before writing, so it is gone from
the index and a following Get on the key returns not-found and records a
miss: Put does not restore the prior cache state on error. (The eviction
pass itself cannot fail: its error result is always nil.) -/
theorem c10_put_failure (c : CacheState) (key : String) (data : List Nat) (f : FaultSpec)
    (hInv : Inv c) (e : Entry) (_he : lookupEntry c.entries key = some e)
    (hf : f.createFails = true ∨ f.copyFails = true ∨ f.renameFails = true) :
    (∃ msg, (putF c key data f).1 = Except.error msg) ∧
    lookupEntry (putF c key data f).2.entries key = none ∧
    (Get (putF c key data f).2 key).1 = none ∧
    (Get (putF c key data f).2 key).2.misses = (putF c key data f).2.misses + 1 := by
  have hnone0 : lookupEntry (putStage0 c key).entries key = none :=
    putStage0_lookup_self c key hInv.1
  cases hcf : f.createFails with
  | true =>
    rw [putF_createFail c key data f hcf]
    have hm := get_miss_of_none (putStage0 c key) key hnone0
    exact ⟨⟨_, rfl⟩, hnone0, hm.1, hm.2.1⟩
  | false =>
    cases hcp : f.copyFails with
    | true =>
      rw [putF_copyFail c key data f hcf hcp]
      have hnone1 : lookupEntry ({ putStage1 c key data with
          files := fsRemove (putStage1 c key data).files
            (sanitizeFilename key ++ ".tmp") } : CacheState).entries key = none := hnone0
      have hm := get_miss_of_none _ key hnone1
      exact ⟨⟨_, rfl⟩, hnone1, hm.1, hm.2.1⟩
    | false =>
      cases hcr : f.renameFails with
      | true =>
        rw [putF_renameFail c key data f hcf hcp hcr]
        have hnone2 : lookupEntry ({ putStage2 c key data with
            files := fsRemove (putStage2 c key data).files
              (sanitizeFilename key ++ ".tmp") } : CacheState).entries key = none :=
          putStage2_lookup_self c key data hInv.1
        have hm := get_miss_of_none _ key hnone2
        exact ⟨⟨_, rfl⟩, hnone2, hm.1, hm.2.1⟩
      | false =>
        rcases hf with h | h | h
        · rw [hcf] at h
          cases h
        · rw [hcp] at h
          cases h
        · rw [hcr] at h
          cases h

/-- Witness for C10 at a concrete one-entry cache with an injected
rename failure. -/
theorem c10_put_failure_witness :
    (∃ msg, (putF oneEntryState ("b/x") [9] ⟨false, false, true⟩).1 = Except.error msg) ∧
    lookupEntry (putF oneEntryState ("b/x") [9] ⟨false, false, true⟩).2.entries ("b/x") =
      none ∧
    (Get (putF oneEntryState ("b/x") [9] ⟨false, false, true⟩).2 ("b/x")).1 = none ∧
    (Get (putF oneEntryState ("b/x") [9] ⟨false, false, true⟩).2 ("b/x")).2.misses =
      (putF oneEntryState ("b/x") [9] ⟨false, false, true⟩).2.misses + 1 :=
  c10_put_failure oneEntryState ("b/x") [9] ⟨false, false, true⟩ (by decide)
    ⟨"b/x", "b_x", 3, 0, 0⟩ (by decide) (Or.inr (Or.inr rfl))

/-! Claim C1. -/

/-- C1: a fault-free Put always succeeds (never an error merely because
the object is large), and afterwards currentSize is at most maxSizeBytes,
except when the stored object alone exceeds the capacity, in which case
the cache holds only that object's entry and currentSize equals its
size. -/
theorem c1_capacity (c : CacheState) (hInv : Inv c) (key : String) (data : List Nat) :
    (∃ p, (Put c key data).1 = Except.ok p) ∧
    (Put c key data).2.maxSizeBytes = c.maxSizeBytes ∧
    ((Put c key data).2.currentSize ≤ c.maxSizeBytes ∨
      (c.maxSizeBytes < (data.length : Int) ∧
        entryKeys (Put c key data).2.entries = [key] ∧
        (Put c key data).2.currentSize = (data.length : Int))) := by
  have hinv1 : Inv (putStage1 c key data) := putStage0_inv c key hInv
  have hspec := evictLoop_spec (data.length : Int)
    (putStage1 c key data).accessOrder.length (putStage1 c key data) hinv1 (le_refl _)
  have hinv2 : Inv (putStage2 c key data) := hspec.1
  have hdisj : (putStage2 c key data).currentSize + (data.length : Int) ≤
      (putStage1 c key data).maxSizeBytes ∨ (putStage2 c key data).accessOrder = [] :=
    hspec.2
  have hmax1 : (putStage1 c key data).maxSizeBytes = c.maxSizeBytes :=
    putStage0_maxSize c key
  refine ⟨⟨filePathOf (sanitizeFilename key), by rw [put_eq_stages]⟩, ?_, ?_⟩
  · rw [put_eq_stages]
    exact putFinal_maxSize c key data
  · rw [put_eq_stages]
    show (putFinal c key data).currentSize ≤ c.maxSizeBytes ∨ _
    rcases hdisj with hle | hempty
    · left
      rw [putFinal_currentSize]
      rw [hmax1] at hle
      exact hle
    · obtain ⟨hnd2, hperm2, hsz2, _⟩ := hinv2
      rw [hempty] at hperm2
      have hkeys : entryKeys (putStage2 c key data).entries = [] :=
        hperm2.symm.eq_nil
      have hentnil : (putStage2 c key data).entries = [] := by
        have := hkeys
        unfold entryKeys at this
        exact List.map_eq_nil_iff.mp this
      have hsz0 : (putStage2 c key data).currentSize = 0 := by
        rw [hsz2, hentnil]
        rfl
      by_cases hbig : (data.length : Int) ≤ c.maxSizeBytes
      · left
        rw [putFinal_currentSize, hsz0, zero_add]
        exact hbig
      · right
        refine ⟨lt_of_not_le hbig, ?_, ?_⟩
        · rw [putFinal_entries, hentnil]
          rfl
        · rw [putFinal_currentSize, hsz0, zero_add]

/-- Witness for C1: storing three bytes in a fresh two-byte cache takes
the boundary branch (the object alone exceeds the capacity). -/
theorem c1_capacity_witness :
    (∃ p, (Put (freshCache 2) ("b/x") [0, 0, 0]).1 = Except.ok p) ∧
    (Put (freshCache 2) ("b/x") [0, 0, 0]).2.maxSizeBytes = (freshCache 2).maxSizeBytes ∧
    ((Put (freshCache 2) ("b/x") [0, 0, 0]).2.currentSize ≤ (freshCache 2).maxSizeBytes ∨
      ((freshCache 2).maxSizeBytes < ((3 : Nat) : Int) ∧
        entryKeys (Put (freshCache 2) ("b/x") [0, 0, 0]).2.entries = ["b/x"] ∧
        (Put (freshCache 2) ("b/x") [0, 0, 0]).2.currentSize = ((3 : Nat) : Int))) :=
  c1_capacity (freshCache 2) (freshCache_inv 2) ("b/x") [0, 0, 0]

/-! Lemmas for the round-trip claim. -/

theorem map_snd_key (es : List (String × Entry)) (h : ∀ p ∈ es, p.2.key = p.1) :
    (es.map Prod.snd).map Entry.key = entryKeys es := by
  induction es with
  | nil => rfl
  | cons p rest ih =>
    rw [List.map_cons, List.map_cons, entryKeys_cons]
    rw [h p (List.mem_cons_self _ _)]
    rw [ih (fun q hq => h q (List.mem_cons_of_mem _ hq))]

theorem putFinal_files (c : CacheState) (key : String) (data : List Nat) :
    (putFinal c key data).files =
      fsWrite (fsRemove (putStage2 c key data).files (sanitizeFilename key ++ ".tmp"))
        (sanitizeFilename key) data := rfl

theorem putFinal_metadata (c : CacheState) (key : String) (data : List Nat) :
    (putFinal c key data).metadata =
      some ((putFinal c key data).entries.map Prod.snd) := rfl

theorem put_files_lookup (c : CacheState) (key : String) (data : List Nat) :
    fsLookup (putFinal c key data).files (sanitizeFilename key) = some data := by
  rw [putFinal_files]
  exact fsLookup_fsWrite_self _ _ _

/-! Claim C3. -/

/-- C3: after a fault-free Put of an object, reloading the cache from the
files and metadata it left on disk yields a Get hit on the key with the
same path, the same backing file contents, and the same size; and every
persisted entry whose backing file is absent at reload time is absent from
the rebuilt index, while the recomputed currentSize is exactly the sum of
the surviving entries' actual file sizes (missing files contribute
nothing). -/
theorem c3_reload_roundtrip (c : CacheState) (hInv : Inv c) (key : String)
    (data : List Nat) (m2 : Int) (iter : List String) :
    ((Put c key data).1 = Except.ok (filePathOf (sanitizeFilename key)) ∧
     (Get (loadFromDisk m2 (Put c key data).2.files (Put c key data).2.metadata iter)
        key).1 = some (filePathOf (sanitizeFilename key)) ∧
     fsLookup (loadFromDisk m2 (Put c key data).2.files (Put c key data).2.metadata
        iter).files (sanitizeFilename key) = some data ∧
     (∃ e, lookupEntry (loadFromDisk m2 (Put c key data).2.files
        (Put c key data).2.metadata iter).entries key = some e ∧
        e.size = (data.length : Int) ∧ e.filename = sanitizeFilename key)) ∧
    (∀ (files2 : FileSys) (md : List Entry) (iter2 : List String),
      (md.map Entry.key).Nodup →
      ∀ e ∈ md, fsLookup files2 e.filename = none →
        e.key ∉ entryKeys (loadFromDisk m2 files2 (some md) iter2).entries ∧
        (loadFromDisk m2 files2 (some md) iter2).currentSize =
          (md.filterMap (loadSizeOf files2)).sum) := by
  constructor
  · have hput2 : (Put c key data).2 = putFinal c key data := by rw [put_eq_stages]
    have hinv4 : Inv (putFinal c key data) := by
      rw [← hput2]
      exact putF_inv c key data noFault hInv
    obtain ⟨hnd4, _, _, hkey4⟩ := hinv4
    have hmdk : ((putFinal c key data).entries.map Prod.snd).map Entry.key =
        entryKeys (putFinal c key data).entries := map_snd_key _ hkey4
    have hmdnd : (((putFinal c key data).entries.map Prod.snd).map Entry.key).Nodup := by
      rw [hmdk]
      exact hnd4
    have hins : (putFinal c key data).entries = (putStage2 c key data).entries ++
        [(key, ⟨key, sanitizeFilename key, (data.length : Int),
          (putStage3 c key data).clock, (putStage3 c key data).clock⟩)] := by
      rw [putFinal_entries]
      exact insertEntry_of_not_mem _ _ _
        ((lookupEntry_eq_none _ _).mp (putStage2_lookup_self c key data hInv.1))
    have hE0mem : (⟨key, sanitizeFilename key, (data.length : Int),
        (putStage3 c key data).clock, (putStage3 c key data).clock⟩ : Entry) ∈
        (putFinal c key data).entries.map Prod.snd := by
      rw [hins]
      simp
    have hfile : fsLookup (putFinal c key data).files (sanitizeFilename key) = some data :=
      put_files_lookup c key data
    have hlook : lookupEntry (loadFromDisk m2 (putFinal c key data).files
        (some ((putFinal c key data).entries.map Prod.snd)) iter).entries key =
        some { (⟨key, sanitizeFilename key, (data.length : Int),
          (putStage3 c key data).clock, (putStage3 c key data).clock⟩ : Entry) with
            size := (data.length : Int) } := by
      show lookupEntry ((loadPhase1 (putFinal c key data).files
        ((putFinal c key data).entries.map Prod.snd)).1) key = _
      rw [loadPhase1_entries _ _ hmdnd]
      exact lookupEntry_filterMap_some _ _ hmdnd _ hE0mem data hfile
    rw [hput2, putFinal_metadata]
    refine ⟨by rw [put_eq_stages], ?_, hfile, ?_⟩
    · simp only [Get, hlook]
      rw [show (loadFromDisk m2 (putFinal c key data).files
          (some ((putFinal c key data).entries.map Prod.snd)) iter).files =
          (putFinal c key data).files from rfl, hfile]
    · exact ⟨_, hlook, rfl, rfl⟩
  · intro files2 md iter2 hnd e he hf
    constructor
    · show e.key ∉ entryKeys (loadPhase1 files2 md).1
      rw [loadPhase1_entries files2 md hnd]
      exact notMem_filterMap_of_missing files2 md hnd e he hf
    · show (loadPhase1 files2 md).2 = _
      exact loadPhase1_size files2 md

/-- Witness for C3 at concrete inputs: one stored object reloaded, and a
one-entry metadata file whose backing file is gone. -/
theorem c3_reload_roundtrip_witness :
    ((Put (freshCache 10) ("b/x") [1, 2]).1 =
        Except.ok (filePathOf (sanitizeFilename ("b/x"))) ∧
      (Get (loadFromDisk 10 (Put (freshCache 10) ("b/x") [1, 2]).2.files
          (Put (freshCache 10) ("b/x") [1, 2]).2.metadata ["b/x"]) ("b/x")).1 =
        some (filePathOf (sanitizeFilename ("b/x"))) ∧
      fsLookup (loadFromDisk 10 (Put (freshCache 10) ("b/x") [1, 2]).2.files
          (Put (freshCache 10) ("b/x") [1, 2]).2.metadata ["b/x"]).files
          (sanitizeFilename ("b/x")) = some [1, 2] ∧
      (∃ e, lookupEntry (loadFromDisk 10 (Put (freshCache 10) ("b/x") [1, 2]).2.files
          (Put (freshCache 10) ("b/x") [1, 2]).2.metadata ["b/x"]).entries ("b/x") =
          some e ∧ e.size = ((2 : Nat) : Int) ∧ e.filename = sanitizeFilename ("b/x"))) ∧
    ((⟨"k", "kf", 1, 0, 0⟩ : Entry).key ∉
        entryKeys (loadFromDisk 10 [] (some [⟨"k", "kf", 1, 0, 0⟩]) []).entries ∧
      (loadFromDisk 10 [] (some [⟨"k", "kf", 1, 0, 0⟩]) []).currentSize =
        ([⟨"k", "kf", 1, 0, 0⟩].filterMap (loadSizeOf [])).sum) :=
  ⟨(c3_reload_roundtrip (freshCache 10) (freshCache_inv 10) ("b/x") [1, 2] 10 ["b/x"]).1,
    (c3_reload_roundtrip (freshCache 10) (freshCache_inv 10) ("b/x") [1, 2] 10 ["b/x"]).2
      [] [⟨"k", "kf", 1, 0, 0⟩] [] (by decide) ⟨"k", "kf", 1, 0, 0⟩ (by decide) (by decide)⟩

/-! Lemmas for the LRU scenario claim. -/

theorem evictLoop_of_le (s : Int) (fuel : Nat) (c : CacheState)
    (h : c.currentSize + s ≤ c.maxSizeBytes) : evictLoop s fuel c = c := by
  cases fuel with
  | zero => rfl
  | succ n =>
    rw [evictLoop, if_neg]
    intro hcond
    exact absurd hcond.1 (not_lt.mpr h)

theorem evictLoop_step (s : Int) (fuel : Nat) (c : CacheState) (k : String)
    (hcond : c.maxSizeBytes < c.currentSize + s)
    (hlast : c.accessOrder.getLast? = some k) :
    evictLoop s (fuel + 1) c =
      evictLoop s fuel
        { removeEntry c k with evictions := (removeEntry c k).evictions + 1 } := by
  have hne : c.accessOrder ≠ [] := by
    intro he
    rw [he] at hlast
    cases hlast
  have hpos : 0 < c.accessOrder.length := by
    cases ho : c.accessOrder with
    | nil => exact absurd ho hne
    | cons a l => simp [ho]
  rw [evictLoop, if_pos ⟨hcond, hpos⟩, hlast]

theorem entries_decomp_head (es : List (String × Entry)) (k : String) (ks' : List String)
    (h : entryKeys es = k :: ks') :
    ∃ e tail, es = (k, e) :: tail ∧ entryKeys tail = ks' := by
  cases es with
  | nil => cases h
  | cons p t =>
    obtain ⟨k0, e0⟩ := p
    rw [entryKeys_cons] at h
    injection h with h1 h2
    have h1' : k0 = k := h1
    subst h1'
    exact ⟨e0, t, rfl, h2⟩

theorem updateEntry_pres (es : List (String × Entry)) (k : String) (f : Entry → Entry)
    (P : String × Entry → Prop) (hf : ∀ k' e, P (k', e) → P (k', f e))
    (h : ∀ p ∈ es, P p) : ∀ p ∈ updateEntry es k f, P p := by
  induction es with
  | nil => simp [updateEntry]
  | cons p rest ih =>
    obtain ⟨k', e⟩ := p
    have hrest : ∀ q ∈ rest, P q := fun q hq => h q (List.mem_cons_of_mem _ hq)
    by_cases hk : k' = k
    · intro q hq
      simp only [updateEntry, if_pos hk, List.mem_cons] at hq
      rcases hq with rfl | hq
      · exact hf k' e (h (k', e) (List.mem_cons_self _ _))
      · exact hrest q hq
    · intro q hq
      simp only [updateEntry, if_neg hk, List.mem_cons] at hq
      rcases hq with rfl | hq
      · exact h (k', e) (List.mem_cons_self _ _)
      · exact ih hrest q hq

theorem putFinal_accessOrder (c : CacheState) (key : String) (data : List Nat) :
    (putFinal c key data).accessOrder = key :: (putStage2 c key data).accessOrder := rfl

theorem putFinal_evictions (c : CacheState) (key : String) (data : List Nat) :
    (putFinal c key data).evictions = (putStage2 c key data).evictions := rfl

theorem putStage1_entries (c : CacheState) (key : String) (data : List Nat) :
    (putStage1 c key data).entries = (putStage0 c key).entries := rfl

theorem putStage0_of_none (c : CacheState) (key : String)
    (h : lookupEntry c.entries key = none) : putStage0 c key = c := by
  unfold putStage0
  rw [h]
  rfl

/-- One Put into a cache that still has room: no eviction happens and the
state extends by the new entry. -/
theorem seq_put_step (maxCap s : Int) (dataOf : String → List Nat) (done : List String)
    (c : CacheState) (hc : SeqState maxCap s dataOf done c) (kNew : String)
    (hkNew : kNew ∉ done)
    (hsanNew : ∀ k ∈ done, sanitizeFilename k ≠ sanitizeFilename kNew)
    (htmpNew : ∀ k ∈ done, sanitizeFilename k ≠ sanitizeFilename kNew ++ ".tmp")
    (hlenNew : ((dataOf kNew).length : Int) = s)
    (hcap : ((done.length : Int) + 1) * s ≤ maxCap) :
    SeqState maxCap s dataOf (done ++ [kNew]) (Put c kNew (dataOf kNew)).2 := by
  obtain ⟨hmax, hkeys, hent, hord, hsz, hev, hfiles⟩ := hc
  have hput2 : (Put c kNew (dataOf kNew)).2 = putFinal c kNew (dataOf kNew) := by
    rw [put_eq_stages]
  have hlook : lookupEntry c.entries kNew = none :=
    lookupEntry_none_of_keys _ _ (by rw [hkeys]; exact hkNew)
  have hstage0 : putStage0 c kNew = c := putStage0_of_none c kNew hlook
  have hs1cur : (putStage1 c kNew (dataOf kNew)).currentSize = c.currentSize := by
    show (putStage0 c kNew).currentSize = c.currentSize
    rw [hstage0]
  have hs1max : (putStage1 c kNew (dataOf kNew)).maxSizeBytes = c.maxSizeBytes := by
    show (putStage0 c kNew).maxSizeBytes = c.maxSizeBytes
    rw [hstage0]
  have hstage2 : putStage2 c kNew (dataOf kNew) = putStage1 c kNew (dataOf kNew) := by
    apply evictLoop_of_le
    rw [hs1cur, hs1max, hsz, hlenNew, hmax]
    calc (done.length : Int) * s + s = ((done.length : Int) + 1) * s := by ring
      _ ≤ maxCap := hcap
  have hs2ent : (putStage2 c kNew (dataOf kNew)).entries = c.entries := by
    rw [hstage2, putStage1_entries, hstage0]
  have hs2ord : (putStage2 c kNew (dataOf kNew)).accessOrder = c.accessOrder := by
    rw [hstage2]
    show (putStage0 c kNew).accessOrder = c.accessOrder
    rw [hstage0]
  have hs2cur : (putStage2 c kNew (dataOf kNew)).currentSize = c.currentSize := by
    rw [hstage2, hs1cur]
  have hs2ev : (putStage2 c kNew (dataOf kNew)).evictions = c.evictions := by
    rw [hstage2]
    show (putStage0 c kNew).evictions = c.evictions
    rw [hstage0]
  have hs2files : (putStage2 c kNew (dataOf kNew)).files =
      fsWrite c.files (sanitizeFilename kNew ++ ".tmp") (dataOf kNew) := by
    rw [hstage2]
    show fsWrite (putStage0 c kNew).files _ _ = _
    rw [hstage0]
  have hs2lookNew : lookupEntry (putStage2 c kNew (dataOf kNew)).entries kNew = none := by
    rw [hs2ent]
    exact hlook
  have hinsapp : (putFinal c kNew (dataOf kNew)).entries =
      c.entries ++ [(kNew, ⟨kNew, sanitizeFilename kNew, ((dataOf kNew).length : Int),
        (putStage3 c kNew (dataOf kNew)).clock, (putStage3 c kNew (dataOf kNew)).clock⟩)] := by
    rw [putFinal_entries]
    rw [insertEntry_of_not_mem _ _ _ ((lookupEntry_eq_none _ _).mp hs2lookNew), hs2ent]
  rw [hput2]
  refine ⟨?_, ?_, ?_, ?_, ?_, ?_, ?_⟩
  · rw [putFinal_maxSize]
    exact hmax
  · rw [hinsapp, entryKeys_append, hkeys]
    rfl
  · rw [hinsapp]
    intro p hp
    rcases List.mem_append.mp hp with hp | hp
    · exact hent p hp
    · rcases List.mem_cons.mp hp with rfl | hp
      · exact ⟨hlenNew, rfl⟩
      · cases hp
  · rw [putFinal_accessOrder, hs2ord, hord, List.reverse_append]
    rfl
  · rw [putFinal_currentSize, hs2cur, hsz, hlenNew]
    have : ((done ++ [kNew]).length : Int) = (done.length : Int) + 1 := by
      simp
    rw [this]
    ring
  · rw [putFinal_evictions, hs2ev]
    exact hev
  · rw [putFinal_files, hs2files]
    intro k hk
    rcases List.mem_append.mp hk with hk | hk
    · have h1 : sanitizeFilename k ≠ sanitizeFilename kNew := hsanNew k hk
      have h2 : sanitizeFilename k ≠ sanitizeFilename kNew ++ ".tmp" := htmpNew k hk
      rw [fsLookup_fsWrite_ne _ _ _ _ h1, fsLookup_fsRemove_ne _ _ _ h2,
        fsLookup_fsWrite_ne _ _ _ _ h2]
      exact hfiles k hk
    · rcases List.mem_cons.mp hk with rfl | hk
      · rw [fsLookup_fsWrite_self]
      · cases hk

theorem mem_of_lookup (es : List (String × Entry)) (k : String) (e : Entry)
    (h : lookupEntry es k = some e) : (k, e) ∈ es := by
  obtain ⟨l1, l2, hsplit, _, _⟩ := lookupEntry_decomp es k e h
  rw [hsplit]
  exact List.mem_append.mpr (Or.inr (List.mem_cons_self _ _))

/-- Folding seq_put_step over a list of pending keys. -/
theorem seq_put_all (maxCap s : Int) (dataOf : String → List Nat) (hs : 0 < s) :
    ∀ (pending done : List String) (c : CacheState),
      SeqState maxCap s dataOf done c →
      (done ++ pending).Nodup →
      (done ++ pending).Pairwise (fun a b => sanitizeFilename a ≠ sanitizeFilename b) →
      (∀ a ∈ done ++ pending, ∀ b ∈ done ++ pending,
        sanitizeFilename a ≠ sanitizeFilename b ++ ".tmp") →
      (∀ k ∈ pending, ((dataOf k).length : Int) = s) →
      (((done.length + pending.length : Nat) : Int) * s ≤ maxCap) →
      SeqState maxCap s dataOf (done ++ pending)
        (putSeq c (pending.map (fun k => (k, dataOf k)))) := by
  intro pending
  induction pending with
  | nil =>
    intro done c hc _ _ _ _ _
    simpa using hc
  | cons k ks ih =>
    intro done c hc hnd hsan htmp hlen hcap
    have hknotdone : k ∉ done := fun hk =>
      (List.nodup_append.mp hnd).2.2 hk (List.mem_cons_self _ _)
    have hsanNew : ∀ j ∈ done, sanitizeFilename j ≠ sanitizeFilename k := fun j hj =>
      (List.pairwise_append.mp hsan).2.2 j hj k (List.mem_cons_self _ _)
    have htmpNew : ∀ j ∈ done, sanitizeFilename j ≠ sanitizeFilename k ++ ".tmp" :=
      fun j hj => htmp j (List.mem_append.mpr (Or.inl hj)) k
        (List.mem_append.mpr (Or.inr (List.mem_cons_self _ _)))
    have hcap1 : ((done.length : Int) + 1) * s ≤ maxCap := by
      have hmono : ((done.length : Int) + 1) ≤
          ((done.length + (k :: ks).length : Nat) : Int) := by
        simp only [List.length_cons]
        push_cast
        omega
      calc ((done.length : Int) + 1) * s
          ≤ ((done.length + (k :: ks).length : Nat) : Int) * s :=
            mul_le_mul_of_nonneg_right hmono (le_of_lt hs)
        _ ≤ maxCap := hcap
    have hstep := seq_put_step maxCap s dataOf done c hc k hknotdone hsanNew htmpNew
      (hlen k (List.mem_cons_self _ _)) hcap1
    have hassoc : (done ++ [k]) ++ ks = done ++ k :: ks := by
      rw [List.append_assoc]
      rfl
    have hnd' : ((done ++ [k]) ++ ks).Nodup := by
      rw [hassoc]
      exact hnd
    have hsan' : ((done ++ [k]) ++ ks).Pairwise
        (fun a b => sanitizeFilename a ≠ sanitizeFilename b) := by
      rw [hassoc]
      exact hsan
    have htmp' : ∀ a ∈ (done ++ [k]) ++ ks, ∀ b ∈ (done ++ [k]) ++ ks,
        sanitizeFilename a ≠ sanitizeFilename b ++ ".tmp" := by
      rw [hassoc]
      exact htmp
    have hlen' : ∀ j ∈ ks, ((dataOf j).length : Int) = s := fun j hj =>
      hlen j (List.mem_cons_of_mem _ hj)
    have hcap' : ((((done ++ [k]).length + ks.length : Nat)) : Int) * s ≤ maxCap := by
      have heq : ((done ++ [k]).length + ks.length : Nat) =
          (done.length + (k :: ks).length : Nat) := by
        simp
        omega
      rw [heq]
      exact hcap
    have := ih (done ++ [k]) (Put c k (dataOf k)).2 hstep hnd' hsan' htmp' hlen' hcap'
    rw [hassoc] at this
    exact this

/-- One Put into an exactly full cache of equal-size objects: the back of
the recency list is evicted (exactly one eviction), and the new key goes
to the most-recently-used position. -/
theorem put_evicts_back (c : CacheState) (kNew : String) (dNew : List Nat) (s : Int)
    (hs : 0 < s) (vic : String) (restOrder : List String)
    (hord : c.accessOrder = restOrder ++ [vic])
    (hvicnot : vic ∉ restOrder)
    (evic : Entry) (hlookv : lookupEntry c.entries vic = some evic)
    (hesz : evic.size = s)
    (hfull : c.currentSize = c.maxSizeBytes)
    (hlookNew : lookupEntry c.entries kNew = none)
    (hdlen : (dNew.length : Int) = s) :
    entryKeys (Put c kNew dNew).2.entries = (entryKeys c.entries).erase vic ++ [kNew] ∧
    (Put c kNew dNew).2.accessOrder = kNew :: restOrder ∧
    (Put c kNew dNew).2.evictions = c.evictions + 1 := by
  have hput2 : (Put c kNew dNew).2 = putFinal c kNew dNew := by rw [put_eq_stages]
  have hstage0 : putStage0 c kNew = c := putStage0_of_none c kNew hlookNew
  have hs1ent : (putStage1 c kNew dNew).entries = c.entries := by
    rw [putStage1_entries, hstage0]
  have hs1ord : (putStage1 c kNew dNew).accessOrder = c.accessOrder := by
    show (putStage0 c kNew).accessOrder = c.accessOrder
    rw [hstage0]
  have hs1cur : (putStage1 c kNew dNew).currentSize = c.currentSize := by
    show (putStage0 c kNew).currentSize = c.currentSize
    rw [hstage0]
  have hs1max : (putStage1 c kNew dNew).maxSizeBytes = c.maxSizeBytes := by
    show (putStage0 c kNew).maxSizeBytes = c.maxSizeBytes
    rw [hstage0]
  have hs1ev : (putStage1 c kNew dNew).evictions = c.evictions := by
    show (putStage0 c kNew).evictions = c.evictions
    rw [hstage0]
  have hlookv1 : lookupEntry (putStage1 c kNew dNew).entries vic = some evic := by
    rw [hs1ent]
    exact hlookv
  have hRent : (removeEntry (putStage1 c kNew dNew) vic).entries =
      eraseEntry c.entries vic := by
    unfold removeEntry
    rw [hlookv1]
    show eraseEntry (putStage1 c kNew dNew).entries vic = _
    rw [hs1ent]
  have hRord : (removeEntry (putStage1 c kNew dNew) vic).accessOrder = restOrder := by
    unfold removeEntry
    rw [hlookv1]
    show (putStage1 c kNew dNew).accessOrder.erase vic = _
    rw [hs1ord, hord, List.erase_append_right _ hvicnot]
    simp
  have hRcur : (removeEntry (putStage1 c kNew dNew) vic).currentSize =
      c.currentSize - evic.size := by
    unfold removeEntry
    rw [hlookv1]
    show (putStage1 c kNew dNew).currentSize - evic.size = _
    rw [hs1cur]
  have hRmax : (removeEntry (putStage1 c kNew dNew) vic).maxSizeBytes = c.maxSizeBytes := by
    rw [removeEntry_maxSize]
    exact hs1max
  have hRev : (removeEntry (putStage1 c kNew dNew) vic).evictions = c.evictions := by
    rw [removeEntry_evictions]
    exact hs1ev
  have hfuel : (putStage1 c kNew dNew).accessOrder.length = restOrder.length + 1 := by
    rw [hs1ord, hord]
    simp
  have hcond : (putStage1 c kNew dNew).maxSizeBytes <
      (putStage1 c kNew dNew).currentSize + (dNew.length : Int) := by
    rw [hs1max, hs1cur, hfull, hdlen]
    exact lt_add_of_pos_right _ hs
  have hlast : (putStage1 c kNew dNew).accessOrder.getLast? = some vic := by
    rw [hs1ord, hord]
    exact List.getLast?_concat _
  have hstage2 : putStage2 c kNew dNew =
      { removeEntry (putStage1 c kNew dNew) vic with
        evictions := (removeEntry (putStage1 c kNew dNew) vic).evictions + 1 } := by
    show evictLoop (dNew.length : Int) (putStage1 c kNew dNew).accessOrder.length
      (putStage1 c kNew dNew) = _
    rw [hfuel, evictLoop_step _ _ _ vic hcond hlast]
    apply evictLoop_of_le
    show (removeEntry (putStage1 c kNew dNew) vic).currentSize + (dNew.length : Int) ≤
      (removeEntry (putStage1 c kNew dNew) vic).maxSizeBytes
    rw [hRcur, hRmax, hfull, hesz, hdlen]
    omega
  have hs2ent : (putStage2 c kNew dNew).entries = eraseEntry c.entries vic := by
    rw [hstage2]
    show (removeEntry (putStage1 c kNew dNew) vic).entries = _
    exact hRent
  have hs2ord : (putStage2 c kNew dNew).accessOrder = restOrder := by
    rw [hstage2]
    show (removeEntry (putStage1 c kNew dNew) vic).accessOrder = _
    exact hRord
  have hs2ev : (putStage2 c kNew dNew).evictions = c.evictions + 1 := by
    rw [hstage2]
    show (removeEntry (putStage1 c kNew dNew) vic).evictions + 1 = _
    rw [hRev]
  have hs2lookNew : lookupEntry (putStage2 c kNew dNew).entries kNew = none := by
    rw [hs2ent]
    exact lookupEntry_eraseEntry_none _ _ _ hlookNew
  rw [hput2]
  refine ⟨?_, ?_, ?_⟩
  · rw [putFinal_entries,
      insertEntry_of_not_mem _ _ _ ((lookupEntry_eq_none _ _).mp hs2lookNew),
      entryKeys_append, hs2ent, entryKeys_eraseEntry]
    rfl
  · rw [putFinal_accessOrder, hs2ord]
  · rw [putFinal_evictions, hs2ev]

/-- A Get on the least-recently-used key of a full sequence state hits and
moves that key to the most-recently-used position, changing nothing
else. -/
theorem seq_get (maxCap s : Int) (dataOf : String → List Nat) (k1 : String)
    (dtail : List String) (c : CacheState)
    (hc : SeqState maxCap s dataOf (k1 :: dtail) c)
    (hnd : (k1 :: dtail).Nodup) :
    (Get c k1).1.isSome ∧
    (Get c k1).2.maxSizeBytes = maxCap ∧
    entryKeys (Get c k1).2.entries = k1 :: dtail ∧
    (∀ p ∈ (Get c k1).2.entries, p.2.size = s ∧ p.2.filename = sanitizeFilename p.1) ∧
    (Get c k1).2.accessOrder = k1 :: dtail.reverse ∧
    (Get c k1).2.currentSize = (((k1 :: dtail).length : Nat) : Int) * s ∧
    (Get c k1).2.evictions = 0 ∧
    ∀ k ∈ k1 :: dtail, fsLookup (Get c k1).2.files (sanitizeFilename k) = some (dataOf k) := by
  obtain ⟨hmax, hkeys, hent, hord, hsz, hev, hfiles⟩ := hc
  obtain ⟨e1, tail, hes, htail⟩ := entries_decomp_head c.entries k1 dtail hkeys
  have hlook : lookupEntry c.entries k1 = some e1 := by
    rw [hes]
    simp [lookupEntry]
  have hp1 : (k1, e1) ∈ c.entries := by
    rw [hes]
    exact List.mem_cons_self _ _
  have hfn : e1.filename = sanitizeFilename k1 := (hent _ hp1).2
  have hfl : fsLookup c.files e1.filename = some (dataOf k1) := by
    rw [hfn]
    exact hfiles k1 (List.mem_cons_self _ _)
  have hmem : k1 ∈ c.accessOrder := by
    rw [hord, List.reverse_cons]
    exact List.mem_append.mpr (Or.inr (List.mem_cons_self _ _))
  have hnotrev : k1 ∉ dtail.reverse := by
    intro hmm
    exact (List.nodup_cons.mp hnd).1 (List.mem_reverse.mp hmm)
  simp only [Get, hlook, hfl]
  refine ⟨by simp, hmax, ?_, ?_, ?_, hsz, hev, hfiles⟩
  · rw [entryKeys_updateEntry]
    exact hkeys
  · exact updateEntry_pres _ _ _ _ (fun k' e h => h) hent
  · rw [if_pos hmem, hord, List.reverse_cons, List.erase_append_right _ hnotrev]
    simp

/-! Claim C2. -/

/-- C2: from a fresh cache whose capacity holds exactly the N equal-size
objects k1, k2, ..., storing them in order and then storing one more
distinct key with no intervening Get evicts exactly the first-stored key
k1 (one eviction, k1 gone, everything else plus the new key present, new
key most recently used); if instead k1 is touched by a (hit) Get first,
the extra Put evicts k2 instead, and the Get had moved k1 to the
most-recently-used position. Keys must be distinct and must not collide
after filename sanitization (the spec declares sanitization collisions
out of contract), and every object has the same positive size s. -/
theorem c2_lru_eviction (k1 k2 kNew : String) (rest : List String)
    (dataOf : String → List Nat) (s : Int) (hs : 0 < s)
    (hnd : ((k1 :: k2 :: rest) ++ [kNew]).Nodup)
    (hsan : ((k1 :: k2 :: rest) ++ [kNew]).Pairwise
      (fun a b => sanitizeFilename a ≠ sanitizeFilename b))
    (htmp : ∀ a ∈ (k1 :: k2 :: rest) ++ [kNew], ∀ b ∈ (k1 :: k2 :: rest) ++ [kNew],
      sanitizeFilename a ≠ sanitizeFilename b ++ ".tmp")
    (hlen : ∀ k ∈ (k1 :: k2 :: rest) ++ [kNew], ((dataOf k).length : Int) = s)
    (cN : CacheState)
    (hcN : cN = putSeq (freshCache ((((k1 :: k2 :: rest).length : Nat) : Int) * s))
      ((k1 :: k2 :: rest).map (fun k => (k, dataOf k)))) :
    (entryKeys (Put cN kNew (dataOf kNew)).2.entries = (k2 :: rest) ++ [kNew] ∧
     (Put cN kNew (dataOf kNew)).2.accessOrder = kNew :: (k2 :: rest).reverse ∧
     (Put cN kNew (dataOf kNew)).2.evictions = 1) ∧
    ((Get cN k1).1.isSome ∧
     entryKeys (Put (Get cN k1).2 kNew (dataOf kNew)).2.entries =
       (k1 :: rest) ++ [kNew] ∧
     (Put (Get cN k1).2 kNew (dataOf kNew)).2.accessOrder = kNew :: k1 :: rest.reverse ∧
     (Put (Get cN k1).2 kNew (dataOf kNew)).2.evictions = 1) := by
  have hndL : (k1 :: k2 :: rest).Nodup := (List.nodup_append.mp hnd).1
  have hknotL : kNew ∉ k1 :: k2 :: rest := fun hk =>
    (List.nodup_append.mp hnd).2.2 hk (List.mem_cons_self _ _)
  have hseq0 : SeqState ((((k1 :: k2 :: rest).length : Nat) : Int) * s) s dataOf []
      (freshCache ((((k1 :: k2 :: rest).length : Nat) : Int) * s)) := by
    refine ⟨rfl, rfl, ?_, rfl, by simp [freshCache, loadFromDisk], rfl, ?_⟩
    · intro p hp
      cases hp
    · intro k hk
      cases hk
  have hseqN : SeqState ((((k1 :: k2 :: rest).length : Nat) : Int) * s) s dataOf
      (k1 :: k2 :: rest) cN := by
    have := seq_put_all ((((k1 :: k2 :: rest).length : Nat) : Int) * s) s dataOf hs
      (k1 :: k2 :: rest) [] (freshCache ((((k1 :: k2 :: rest).length : Nat) : Int) * s))
      hseq0 (by rw [List.nil_append]; exact hndL)
      (by
        rw [List.nil_append]
        exact List.Pairwise.sublist (List.sublist_append_left (k1 :: k2 :: rest) [kNew]) hsan)
      (by
        intro a ha b hb
        rw [List.nil_append] at ha hb
        exact htmp a (List.mem_append.mpr (Or.inl ha)) b (List.mem_append.mpr (Or.inl hb)))
      (fun k hk => hlen k (List.mem_append.mpr (Or.inl hk)))
      (by simp)
    rw [← hcN] at this
    simpa using this
  obtain ⟨hmaxN, hkeysN, hentN, hordN, hszN, hevN, hfilesN⟩ := hseqN
  have hfullN : cN.currentSize = cN.maxSizeBytes := by
    rw [hszN, hmaxN]
  have hlookNewN : lookupEntry cN.entries kNew = none :=
    lookupEntry_none_of_keys _ _ (by rw [hkeysN]; exact hknotL)
  have hdlenNew : ((dataOf kNew).length : Int) = s :=
    hlen kNew (List.mem_append.mpr (Or.inr (List.mem_cons_self _ _)))
  constructor
  · -- scenario 1: no Get; the extra Put evicts k1
    obtain ⟨e1, tail1, hes1, _⟩ := entries_decomp_head cN.entries k1 (k2 :: rest) hkeysN
    have hlook1 : lookupEntry cN.entries k1 = some e1 := by
      rw [hes1]
      simp [lookupEntry]
    have hsz1 : e1.size = s :=
      (hentN _ (mem_of_lookup _ _ _ hlook1)).1
    have hord1 : cN.accessOrder = (k2 :: rest).reverse ++ [k1] := by
      rw [hordN, List.reverse_cons]
    have hnot1 : k1 ∉ (k2 :: rest).reverse := by
      intro hmm
      exact (List.nodup_cons.mp hndL).1 (List.mem_reverse.mp hmm)
    obtain ⟨hk, ho, he⟩ := put_evicts_back cN kNew (dataOf kNew) s hs k1
      ((k2 :: rest).reverse) hord1 hnot1 e1 hlook1 hsz1 hfullN hlookNewN hdlenNew
    refine ⟨?_, ho, ?_⟩
    · rw [hk, hkeysN, List.erase_cons_head]
    · rw [he, hevN]
      omega
  · -- scenario 2: Get k1 first, then the extra Put evicts k2
    obtain ⟨hhit, hmaxG, hkeysG, hentG, hordG, hszG, hevG, hfilesG⟩ :=
      seq_get ((((k1 :: k2 :: rest).length : Nat) : Int) * s) s dataOf k1 (k2 :: rest) cN
        ⟨hmaxN, hkeysN, hentN, hordN, hszN, hevN, hfilesN⟩ hndL
    have hfullG : (Get cN k1).2.currentSize = (Get cN k1).2.maxSizeBytes := by
      rw [hszG, hmaxG]
    have hk2mem : k2 ∈ entryKeys (Get cN k1).2.entries := by
      rw [hkeysG]
      exact List.mem_cons_of_mem _ (List.mem_cons_self _ _)
    obtain ⟨e2, hlook2⟩ :=
      Option.isSome_iff_exists.mp (lookupEntry_isSome_of_mem _ _ hk2mem)
    have hsz2 : e2.size = s := (hentG _ (mem_of_lookup _ _ _ hlook2)).1
    have hne12 : k2 ≠ k1 := by
      intro hmm
      have := (List.nodup_cons.mp hndL).1
      rw [← hmm] at this
      exact this (List.mem_cons_self _ _)
    have hk2notrest : k2 ∉ rest := (List.nodup_cons.mp (List.nodup_cons.mp hndL).2).1
    have hordG2 : (Get cN k1).2.accessOrder = (k1 :: rest.reverse) ++ [k2] := by
      rw [hordG, List.reverse_cons]
      rfl
    have hnot2 : k2 ∉ k1 :: rest.reverse := by
      intro hmm
      rcases List.mem_cons.mp hmm with hmm | hmm
      · exact hne12 hmm
      · exact hk2notrest (List.mem_reverse.mp hmm)
    have hlookNewG : lookupEntry (Get cN k1).2.entries kNew = none :=
      lookupEntry_none_of_keys _ _ (by rw [hkeysG]; exact hknotL)
    obtain ⟨hk, ho, he⟩ := put_evicts_back (Get cN k1).2 kNew (dataOf kNew) s hs k2
      (k1 :: rest.reverse) hordG2 hnot2 e2 hlook2 hsz2 hfullG hlookNewG hdlenNew
    refine ⟨hhit, ?_, ho, ?_⟩
    · rw [hk, hkeysG]
      rw [List.erase_cons_tail (by simp only [beq_iff_eq]; exact Ne.symm hne12),
        List.erase_cons_head]
    · rw [he, hevG]
      omega

/-- Witness for C2: capacity for exactly two one-byte objects, keys a and
b stored, then c stored; in the plain run a is evicted, after touching a
via Get the victim is b instead. -/
theorem c2_lru_eviction_witness :
    (entryKeys (Put (putSeq (freshCache ((((["a", "b"] : List String).length : Nat) : Int)
          * 1)) ((["a", "b"] : List String).map (fun k => (k, [7]))))
        ("c") [7]).2.entries = (["b"] : List String) ++ ["c"] ∧
      (Put (putSeq (freshCache ((((["a", "b"] : List String).length : Nat) : Int) * 1))
          ((["a", "b"] : List String).map (fun k => (k, [7]))))
        ("c") [7]).2.accessOrder = "c" :: (["b"] : List String).reverse ∧
      (Put (putSeq (freshCache ((((["a", "b"] : List String).length : Nat) : Int) * 1))
          ((["a", "b"] : List String).map (fun k => (k, [7]))))
        ("c") [7]).2.evictions = 1) ∧
    ((Get (putSeq (freshCache ((((["a", "b"] : List String).length : Nat) : Int) * 1))
        ((["a", "b"] : List String).map (fun k => (k, [7])))) ("a")).1.isSome ∧
      entryKeys (Put (Get (putSeq (freshCache ((((["a", "b"] : List String).length : Nat)
          : Int) * 1)) ((["a", "b"] : List String).map (fun k => (k, [7])))) ("a")).2
        ("c") [7]).2.entries = (["a"] : List String) ++ ["c"] ∧
      (Put (Get (putSeq (freshCache ((((["a", "b"] : List String).length : Nat) : Int)
          * 1)) ((["a", "b"] : List String).map (fun k => (k, [7])))) ("a")).2
        ("c") [7]).2.accessOrder = "c" :: "a" :: ([] : List String).reverse ∧
      (Put (Get (putSeq (freshCache ((((["a", "b"] : List String).length : Nat) : Int)
          * 1)) ((["a", "b"] : List String).map (fun k => (k, [7])))) ("a")).2
        ("c") [7]).2.evictions = 1) :=
  c2_lru_eviction ("a") ("b") ("c") [] (fun _ => [7]) 1 (by decide) (by decide)
    (by decide) (by decide) (by decide) _ rfl

end Midway
